import Mathlib

/-!
Verification of `epicshop/fix.js`, a workshop-repository maintenance script.

The script is embedded shallowly:

* strings are `List Char` (`Str`), matching the JS string operations used
  (`String.prototype.replace` with a string pattern replaces the first
  occurrence only, `replace` with the global regex `/\\|\//g` replaces every
  slash, `includes` and `/(problem|solution)/.test` are substring tests);
* the filesystem is a flat association list from absolute file paths
  (slash-separated strings) to file contents; directories exist exactly when
  some file lives strictly below them (empty directories are not modelled);
* JSON values are an inductive type with an executable serializer mirroring
  `JSON.stringify(v, null, 2)` and an executable parser mirroring
  `JSON.parse` (numbers are restricted to integers, and the ECMAScript
  reordering of integer-like object keys is not modelled; `JSON.parse`
  keeps the last of duplicate keys at the position of the first, which the
  parser mirrors by building objects with JS property assignment);
* fallible operations (a missing file, a JSON parse error, setting `.name`
  on a primitive, which throws in strict mode) return `Option`, `none`
  standing for the fatal abort of the script on an unhandled rejection.

The platform path separator is modelled as `/`.
-/

namespace Fix

abbrev Str := List Char

/-- The platform path separator, `path.sep`. -/
def sepC : Char := '/'

/-- `isPre p s` : the list `p` is a leading piece of `s`. -/
def isPre : Str → Str → Bool
  | [], _ => true
  | _ :: _, [] => false
  | p :: ps, c :: cs => if p = c then isPre ps cs else false

/-- `hasSub pat s` : `pat` occurs as a contiguous substring of `s`.
This is JS `s.includes(pat)`, and also `/(problem|solution)/.test` once
the alternatives are split. -/
def hasSub (pat : Str) : Str → Bool
  | [] => isPre pat []
  | c :: cs => isPre pat (c :: cs) || hasSub pat cs

/-- JS `s.replace(pat, rep)` with a *string* pattern: replace only the first
occurrence of `pat`, or return `s` unchanged when `pat` does not occur. -/
def replaceFirst (pat rep : Str) : Str → Str
  | [] => if isPre pat [] then rep else []
  | c :: cs =>
      if isPre pat (c :: cs) then rep ++ (c :: cs).drop pat.length
      else c :: replaceFirst pat rep cs

/-- JS `s.replace(/\\|\//g, '__sep__')`: every forward- or back-slash becomes
the literal token `__sep__`. -/
def replaceSeps : Str → Str
  | [] => []
  | c :: cs =>
      if c = '/' ∨ c = '\\' then "__sep__".data ++ replaceSeps cs
      else c :: replaceSeps cs

theorem isPre_append (p t : Str) : isPre p (p ++ t) = true := by
  induction p with
  | nil => rfl
  | cons c cs ih => simp [isPre, ih]

theorem isPre_nil_false {p : Str} (hp : p ≠ []) : isPre p [] = false := by
  cases p with
  | nil => exact absurd rfl hp
  | cons c cs => rfl

theorem replaceFirst_of_pre (pat rep t : Str) :
    replaceFirst pat rep (pat ++ t) = rep ++ t := by
  cases pat with
  | nil =>
      cases t with
      | nil => simp [replaceFirst, isPre]
      | cons c cs => simp [replaceFirst, isPre]
  | cons a as =>
      have hcons : (a :: as) ++ t = a :: (as ++ t) := rfl
      rw [hcons]
      have hpre : isPre (a :: as) (a :: (as ++ t)) = true := by
        have := isPre_append (a :: as) t
        simpa using this
      simp only [replaceFirst, hpre, if_pos]
      have hdrop : (a :: (as ++ t)).drop (a :: as).length = t := by
        rw [← hcons]
        exact List.drop_left (a :: as) t
      rw [hdrop]

/-- Divergence of two strings at a position inside both: used to show that a
`problem` path and its derived `solution` path can never be prefix-related,
even after appending arbitrary suffixes. -/
inductive Clash : Str → Str → Prop
  | head {c d : Char} (s t : Str) : c ≠ d → Clash (c :: s) (d :: t)
  | tail {c : Char} {s t : Str} : Clash s t → Clash (c :: s) (c :: t)

theorem Clash.symm {s t : Str} (h : Clash s t) : Clash t s := by
  induction h with
  | head s t hne => exact Clash.head t s (Ne.symm hne)
  | tail _ ih => exact Clash.tail ih

theorem Clash.append {s t : Str} (h : Clash s t) (x y : Str) :
    Clash (s ++ x) (t ++ y) := by
  induction h with
  | head s t hne => exact Clash.head _ _ hne
  | tail _ ih => exact Clash.tail ih

theorem Clash.isPre_false {s t : Str} (h : Clash s t) : isPre s t = false := by
  induction h with
  | head s t hne => simp [isPre, hne]
  | tail _ ih => simp [isPre, ih]

theorem Clash.ne {s t : Str} (h : Clash s t) : s ≠ t := by
  induction h with
  | head s t hne => simp [hne]
  | tail _ ih => simp [ih]

/-- If `pat` occurs in `s` and replacing its first occurrence with `rep`
changes the head of the match (`pat` and `rep` start with different
characters, both nonempty), the result diverges from `s` at a position
inside both strings. -/
theorem clash_replaceFirst {p ps r rs : Str} {cp cr : Char} (hne : cp ≠ cr)
    (hp : p = cp :: ps) (hr : r = cr :: rs) :
    ∀ s : Str, hasSub p s = true → Clash s (replaceFirst p r s) := by
  intro s
  induction s with
  | nil =>
      intro h
      subst hp
      simp [hasSub, isPre] at h
  | cons c cs ih =>
      intro h
      by_cases hpre : isPre p (c :: cs) = true
      · subst hp
        subst hr
        have hc : c = cp := by
          simp only [isPre] at hpre
          by_cases hq : cp = c
          · exact hq.symm
          · simp [hq] at hpre
        subst hc
        simp only [replaceFirst, hpre, if_pos]
        exact Clash.head _ _ hne
      · have hsub : hasSub p cs = true := by
          simp only [hasSub] at h
          rcases Bool.or_eq_true_iff.mp h with h1 | h2
          · exact absurd h1 hpre
          · exact h2
        simp only [replaceFirst, hpre]
        simp only [Bool.not_eq_true] at hpre
        rw [if_neg (by simp [hpre])]
        exact Clash.tail (ih hsub)

/-! ### JSON whitespace, digits, and string escaping -/

/-- The four JSON insignificant-whitespace characters. -/
def isWsC (c : Char) : Bool := decide (c = ' ' ∨ c = '\n' ∨ c = '\t' ∨ c = '\r')

def skipWs : Str → Str
  | [] => []
  | c :: cs => if isWsC c then skipWs cs else c :: cs

def headIs : Str → Char → Bool
  | [], _ => false
  | c :: _, ch => decide (c = ch)

def isDigitC (c : Char) : Bool := decide ('0' ≤ c ∧ c ≤ '9')

def headDigit : Str → Bool
  | [] => false
  | c :: _ => isDigitC c

def digitChar (n : Nat) : Char := Char.ofNat (48 + n)

def digitVal (c : Char) : Nat := c.toNat - 48

/-- Decimal rendering of a natural number, as `JSON.stringify` renders it. -/
def natSer (n : Nat) : Str :=
  if n < 10 then [digitChar n]
  else natSer (n / 10) ++ [digitChar (n % 10)]
  termination_by n
  decreasing_by exact Nat.div_lt_self (by omega) (by omega)

def digitsToNat (l : Str) : Nat := l.foldl (fun a c => 10 * a + digitVal c) 0

def serInt (n : Int) : Str :=
  if n < 0 then '-' :: natSer n.natAbs else natSer n.natAbs

/-- The two brace characters, written via their code points. -/
def lbr : Char := Char.ofNat 123

def rbr : Char := Char.ofNat 125

def hexDigit (n : Nat) : Char :=
  if n < 10 then Char.ofNat (48 + n) else Char.ofNat (87 + n)

def isHexC (c : Char) : Bool :=
  isDigitC c || decide ('a' ≤ c ∧ c ≤ 'f') || decide ('A' ≤ c ∧ c ≤ 'F')

def hexVal (c : Char) : Nat :=
  if isDigitC c then c.toNat - 48
  else if decide ('a' ≤ c ∧ c ≤ 'f') then c.toNat - 87
  else c.toNat - 55

/-- How `JSON.stringify` escapes one character inside a string literal:
quote and backslash get a backslash, the five control characters with short
escapes use them, the remaining control characters use `\u00XX` with
lowercase hex, and everything else is emitted as itself. -/
def escChar (c : Char) : Str :=
  if c = '"' then ['\\', '"']
  else if c = '\\' then ['\\', '\\']
  else if c = '\n' then ['\\', 'n']
  else if c = '\t' then ['\\', 't']
  else if c = '\r' then ['\\', 'r']
  else if c.toNat = 8 then ['\\', 'b']
  else if c.toNat = 12 then ['\\', 'f']
  else if c.toNat < 32 then
    ['\\', 'u', '0', '0', hexDigit (c.toNat / 16), hexDigit (c.toNat % 16)]
  else [c]

def escape : Str → Str
  | [] => []
  | c :: cs => escChar c ++ escape cs

/-! ### JSON values -/

inductive Json where
  | jnull : Json
  | jbool : Bool → Json
  | jnum : Int → Json
  | jstr : Str → Json
  | jarr : List Json → Json
  | jobj : List (Str × Json) → Json

/-- Two spaces of indentation per level, the `2` in
`JSON.stringify(pkg, null, 2)`. -/
def ind (k : Nat) : Str := List.replicate (2 * k) ' '

mutual

/-- `JSON.stringify(v, null, 2)` at indentation level `k`. -/
def serAt : Nat → Json → Str
  | _, .jnull => "null".data
  | _, .jbool true => "true".data
  | _, .jbool false => "false".data
  | _, .jnum n => serInt n
  | _, .jstr s => '"' :: (escape s ++ ['"'])
  | _, .jarr [] => ['[', ']']
  | k, .jarr (x :: xs) =>
      '[' :: '\n' ::
        (ind (k + 1) ++ serAt (k + 1) x ++ serList (k + 1) xs ++
          '\n' :: (ind k ++ [']']))
  | _, .jobj [] => [lbr, rbr]
  | k, .jobj (f :: fl) =>
      lbr :: '\n' ::
        (ind (k + 1) ++ serField (k + 1) f ++ serFields (k + 1) fl ++
          '\n' :: (ind k ++ [rbr]))

def serField : Nat → Str × Json → Str
  | k, (key, v) => '"' :: (escape key ++ '"' :: ':' :: ' ' :: serAt k v)

def serList : Nat → List Json → Str
  | _, [] => []
  | k, x :: xs => ',' :: '\n' :: (ind k ++ serAt k x ++ serList k xs)

def serFields : Nat → List (Str × Json) → Str
  | _, [] => []
  | k, f :: fl => ',' :: '\n' :: (ind k ++ serField k f ++ serFields k fl)

end

def serTop (j : Json) : Str := serAt 0 j

/-- JS property assignment `obj[k] = v`: an existing key keeps its position
and gets the new value, a fresh key is appended at the end. -/
def objInsert : List (Str × Json) → Str → Json → List (Str × Json)
  | [], k, v => [(k, v)]
  | (k', v') :: t, k, v =>
      if k' = k then (k, v) :: t else (k', v') :: objInsert t k v

/-- JS property read: first (unique) matching key. -/
def jlookup : List (Str × Json) → Str → Option Json
  | [], _ => none
  | (k', v') :: t, k => if k' = k then some v' else jlookup t k

/-- `pkg.name = v` in strict-mode JS, followed by serialization semantics:
on an object the field is assigned; on an array the expando property is
accepted but invisible to `JSON.stringify`; on a primitive the assignment
throws a `TypeError`, which aborts the script. -/
def setName : Json → Str → Option Json
  | .jobj fl, v => some (.jobj (objInsert fl "name".data (.jstr v)))
  | .jarr xs, _ => some (.jarr xs)
  | _, _ => none

/-- Reading a field of a JSON value: `jobj` fields are looked up, every
other value has no fields. -/
def jfield : Json → Str → Option Json
  | .jobj fl, k => jlookup fl k
  | _, _ => none

/-- Building a JS object from parsed key/value pairs one assignment at a
time, which is how `JSON.parse` resolves duplicate keys (last value wins,
position of the first occurrence). -/
def insertAll (acc : List (Str × Json)) : List (Str × Json) → List (Str × Json)
  | [] => acc
  | p :: t => insertAll (objInsert acc p.1 p.2) t

/-! ### JSON parser (`JSON.parse`), with explicit fuel.

Restriction: number literals are integers (no fraction or exponent part);
the manifests this script reads contain no non-integer numbers. -/

def mapCons (c : Char) : Option (Str × Str) → Option (Str × Str)
  | some (s, r) => some (c :: s, r)
  | none => none

/-- Parse the body of a string literal after the opening quote, undoing the
escapes of `escChar` (plus `\/`, which `JSON.parse` also accepts). -/
def parseStrB : Str → Option (Str × Str)
  | [] => none
  | c :: r =>
      if c = '"' then some ([], r)
      else if c = '\\' then
        match r with
        | [] => none
        | e :: r2 =>
            if e = '"' then mapCons '"' (parseStrB r2)
            else if e = '\\' then mapCons '\\' (parseStrB r2)
            else if e = '/' then mapCons '/' (parseStrB r2)
            else if e = 'n' then mapCons '\n' (parseStrB r2)
            else if e = 't' then mapCons '\t' (parseStrB r2)
            else if e = 'r' then mapCons '\r' (parseStrB r2)
            else if e = 'b' then mapCons (Char.ofNat 8) (parseStrB r2)
            else if e = 'f' then mapCons (Char.ofNat 12) (parseStrB r2)
            else if e = 'u' then
              match r2 with
              | h1 :: h2 :: h3 :: h4 :: r3 =>
                  if isHexC h1 && isHexC h2 && isHexC h3 && isHexC h4 then
                    mapCons
                      (Char.ofNat
                        (hexVal h1 * 4096 + hexVal h2 * 256 +
                          hexVal h3 * 16 + hexVal h4))
                      (parseStrB r3)
                  else none
              | _ => none
            else none
      else mapCons c (parseStrB r)

def parseNatTok (s : Str) : Option (Nat × Str) :=
  let ds := s.takeWhile isDigitC
  if ds = [] then none else some (digitsToNat ds, s.dropWhile isDigitC)

mutual

def parseVal : Nat → Str → Option (Json × Str)
  | 0, _ => none
  | fuel + 1, s =>
      match skipWs s with
      | [] => none
      | c :: r =>
          if c = 'n' then
            if isPre "ull".data r then some (.jnull, r.drop 3) else none
          else if c = 't' then
            if isPre "rue".data r then some (.jbool true, r.drop 3) else none
          else if c = 'f' then
            if isPre "alse".data r then some (.jbool false, r.drop 4) else none
          else if c = '"' then
            match parseStrB r with
            | some (st, rest) => some (.jstr st, rest)
            | none => none
          else if c = '-' then
            if headDigit r then
              match parseNatTok r with
              | some (m, rest) => some (.jnum (-(m : Int)), rest)
              | none => none
            else none
          else if isDigitC c then
            match parseNatTok (c :: r) with
            | some (m, rest) => some (.jnum (m : Int), rest)
            | none => none
          else if c = '[' then
            let r' := skipWs r
            if headIs r' ']' then some (.jarr [], r'.tail)
            else
              match parseVal fuel r with
              | some (v, r2) =>
                  match parseElems fuel r2 with
                  | some (vs, r3) => some (.jarr (v :: vs), r3)
                  | none => none
              | none => none
          else if c = lbr then
            let r' := skipWs r
            if headIs r' rbr then some (.jobj [], r'.tail)
            else
              match parsePair fuel r with
              | some (kv, r2) =>
                  match parseFieldsMore fuel r2 with
                  | some (ps, r3) => some (.jobj (insertAll [] (kv :: ps)), r3)
                  | none => none
              | none => none
          else none

def parseElems : Nat → Str → Option (List Json × Str)
  | 0, _ => none
  | fuel + 1, s =>
      let s' := skipWs s
      if headIs s' ']' then some ([], s'.tail)
      else if headIs s' ',' then
        match parseVal fuel s'.tail with
        | some (v, r) =>
            match parseElems fuel r with
            | some (vs, r2) => some (v :: vs, r2)
            | none => none
        | none => none
      else none

def parsePair : Nat → Str → Option ((Str × Json) × Str)
  | 0, _ => none
  | fuel + 1, s =>
      let s' := skipWs s
      if headIs s' '"' then
        match parseStrB s'.tail with
        | some (key, r) =>
            let r' := skipWs r
            if headIs r' ':' then
              match parseVal fuel r'.tail with
              | some (v, r2) => some ((key, v), r2)
              | none => none
            else none
        | none => none
      else none

def parseFieldsMore : Nat → Str → Option (List (Str × Json) × Str)
  | 0, _ => none
  | fuel + 1, s =>
      let s' := skipWs s
      if headIs s' rbr then some ([], s'.tail)
      else if headIs s' ',' then
        match parsePair fuel s'.tail with
        | some (kv, r) =>
            match parseFieldsMore fuel r with
            | some (ps, r2) => some (kv :: ps, r2)
            | none => none
        | none => none
      else none

end

/-- `JSON.parse`: the whole text must be one JSON value, with insignificant
whitespace allowed around it. Each parsing step consumes at least one
character, so `s.length + 1` units of fuel always suffice. -/
def parseJson (s : Str) : Option Json :=
  match parseVal (s.length + 1) s with
  | some (j, rest) => if skipWs rest = [] then some j else none
  | none => none

/-- Well-formedness invariant maintained by `JSON.parse` outputs: every
object has pairwise distinct keys (JS object keys are unique). -/
def nodupKeys : List (Str × Json) → Bool
  | [] => true
  | (k, _) :: t => !(t.any fun e => decide (e.1 = k)) && nodupKeys t

mutual

def jwfB : Json → Bool
  | .jnull => true
  | .jbool _ => true
  | .jnum _ => true
  | .jstr _ => true
  | .jarr xs => jwfL xs
  | .jobj fl => nodupKeys fl && jwfF fl

def jwfL : List Json → Bool
  | [] => true
  | x :: xs => jwfB x && jwfL xs

def jwfF : List (Str × Json) → Bool
  | [] => true
  | (_, v) :: t => jwfB v && jwfF t

end

mutual

def jsizeV : Json → Nat
  | .jnull => 1
  | .jbool _ => 1
  | .jnum _ => 1
  | .jstr _ => 1
  | .jarr xs => 1 + jsizeL xs
  | .jobj fl => 1 + jsizeF fl

def jsizeL : List Json → Nat
  | [] => 1
  | x :: xs => 2 + jsizeV x + jsizeL xs

def jsizeF : List (Str × Json) → Nat
  | [] => 1
  | (_, v) :: t => 2 + jsizeV v + jsizeF t

end

/-! ### Round-trip: token-level lemmas -/

theorem skipWs_all_ws {l : Str} (s : Str) (h : ∀ c ∈ l, isWsC c = true) :
    skipWs (l ++ s) = skipWs s := by
  induction l with
  | nil => rfl
  | cons c cs ih =>
      have hc : isWsC c = true := h c (by simp)
      have ih' := ih fun d hd => h d (by simp [hd])
      simp [skipWs, hc, ih']

theorem skipWs_not_ws {c : Char} (s : Str) (h : isWsC c = false) :
    skipWs (c :: s) = c :: s := by
  simp [skipWs, h]

theorem ind_all_ws (k : Nat) : ∀ c ∈ ind k, isWsC c = true := by
  intro c hc
  simp only [ind] at hc
  have := List.eq_of_mem_replicate hc
  subst this
  decide

theorem skipWs_nl_ind (k : Nat) (s : Str) :
    skipWs ('\n' :: (ind k ++ s)) = skipWs s := by
  have h1 : skipWs (ind k ++ s) = skipWs s := skipWs_all_ws s (ind_all_ws k)
  have h2 : isWsC '\n' = true := by decide
  simp [skipWs, h2, h1]

theorem digitVal_digitChar {n : Nat} (h : n < 10) :
    digitVal (digitChar n) = n := by
  interval_cases n <;> decide

theorem isDigitC_digitChar {n : Nat} (h : n < 10) :
    isDigitC (digitChar n) = true := by
  interval_cases n <;> decide

theorem natSer_all_digits (n : Nat) : ∀ c ∈ natSer n, isDigitC c = true := by
  induction n using natSer.induct with
  | case1 n h =>
      rw [natSer, if_pos h]
      intro c hc
      simp at hc
      subst hc
      exact isDigitC_digitChar h
  | case2 n h ih =>
      rw [natSer, if_neg h]
      intro c hc
      rcases List.mem_append.mp hc with h1 | h2
      · exact ih c h1
      · simp at h2
        subst h2
        exact isDigitC_digitChar (Nat.mod_lt _ (by omega))

theorem natSer_ne_nil (n : Nat) : natSer n ≠ [] := by
  induction n using natSer.induct with
  | case1 n h => rw [natSer, if_pos h]; simp
  | case2 n h ih => rw [natSer, if_neg h]; simp

theorem digitsToNat_append_one (l : Str) (c : Char) :
    digitsToNat (l ++ [c]) = 10 * digitsToNat l + digitVal c := by
  simp [digitsToNat, List.foldl_append]

theorem digitsToNat_natSer (n : Nat) : digitsToNat (natSer n) = n := by
  induction n using natSer.induct with
  | case1 n h =>
      rw [natSer, if_pos h]
      simp [digitsToNat, digitVal_digitChar h]
  | case2 n h ih =>
      rw [natSer, if_neg h, digitsToNat_append_one, ih,
        digitVal_digitChar (Nat.mod_lt _ (by omega))]
      omega

/-- The character after a serialized number must not be a digit, so that the
parser stops at the right place. Every continuation emitted by the
serializer satisfies this. -/
def noDigitHead : Str → Prop
  | [] => True
  | c :: _ => isDigitC c = false

theorem takeWhile_digits {l r : Str} (hl : ∀ c ∈ l, isDigitC c = true)
    (hr : noDigitHead r) :
    (l ++ r).takeWhile isDigitC = l ∧ (l ++ r).dropWhile isDigitC = r := by
  induction l with
  | nil =>
      cases r with
      | nil => simp
      | cons c cs =>
          simp only [noDigitHead] at hr
          simp [List.takeWhile_cons, List.dropWhile_cons, hr]
  | cons a l ih =>
      have ha := hl a (by simp)
      have ih' := ih fun c hc => hl c (by simp [hc])
      simp [List.takeWhile_cons, List.dropWhile_cons, ha, ih'.1, ih'.2]

theorem parseNatTok_natSer (n : Nat) (rest : Str) (hrest : noDigitHead rest) :
    parseNatTok (natSer n ++ rest) = some (n, rest) := by
  obtain ⟨ht, hd⟩ := takeWhile_digits (natSer_all_digits n) hrest
  simp only [parseNatTok, ht, hd, digitsToNat_natSer]
  simp [natSer_ne_nil n]

theorem headDigit_natSer (n : Nat) (rest : Str) :
    headDigit (natSer n ++ rest) = true := by
  cases hn : natSer n with
  | nil => exact absurd hn (natSer_ne_nil n)
  | cons d ds =>
      have hd : isDigitC d = true := natSer_all_digits n d (by rw [hn]; simp)
      simp [headDigit, hd]

theorem hexVal_hexDigit {n : Nat} (h : n < 16) : hexVal (hexDigit n) = n := by
  interval_cases n <;> decide

theorem isHexC_hexDigit {n : Nat} (h : n < 16) : isHexC (hexDigit n) = true := by
  interval_cases n <;> decide

theorem parseStrB_quote (r : Str) : parseStrB ('"' :: r) = some ([], r) := by
  rw [parseStrB.eq_def]; simp

theorem parseStrB_esc_q (r : Str) :
    parseStrB ('\\' :: '"' :: r) = mapCons '"' (parseStrB r) := by
  rw [parseStrB.eq_def]; simp

theorem parseStrB_esc_bs (r : Str) :
    parseStrB ('\\' :: '\\' :: r) = mapCons '\\' (parseStrB r) := by
  rw [parseStrB.eq_def]; simp

theorem parseStrB_esc_n (r : Str) :
    parseStrB ('\\' :: 'n' :: r) = mapCons '\n' (parseStrB r) := by
  rw [parseStrB.eq_def]; simp

theorem parseStrB_esc_t (r : Str) :
    parseStrB ('\\' :: 't' :: r) = mapCons '\t' (parseStrB r) := by
  rw [parseStrB.eq_def]; simp

theorem parseStrB_esc_cr (r : Str) :
    parseStrB ('\\' :: 'r' :: r) = mapCons '\r' (parseStrB r) := by
  rw [parseStrB.eq_def]; simp

theorem parseStrB_esc_b (r : Str) :
    parseStrB ('\\' :: 'b' :: r) = mapCons (Char.ofNat 8) (parseStrB r) := by
  rw [parseStrB.eq_def]; simp

theorem parseStrB_esc_f (r : Str) :
    parseStrB ('\\' :: 'f' :: r) = mapCons (Char.ofNat 12) (parseStrB r) := by
  rw [parseStrB.eq_def]; simp

theorem parseStrB_esc_u (a b : Char) (ha : isHexC a = true)
    (hb : isHexC b = true) (r : Str) :
    parseStrB ('\\' :: 'u' :: '0' :: '0' :: a :: b :: r) =
      mapCons (Char.ofNat (hexVal a * 16 + hexVal b)) (parseStrB r) := by
  rw [parseStrB.eq_def]
  simp [ha, hb, (by decide : isHexC '0' = true), (by decide : hexVal '0' = 0)]

theorem parseStrB_plain {c : Char} (h1 : c ≠ '"') (h2 : c ≠ '\\') (r : Str) :
    parseStrB (c :: r) = mapCons c (parseStrB r) := by
  rw [parseStrB.eq_def]
  simp [h1, h2]

theorem parseStrB_escape (s rest : Str) :
    parseStrB (escape s ++ '"' :: rest) = some (s, rest) := by
  induction s with
  | nil =>
      simp only [escape, List.nil_append]
      exact parseStrB_quote rest
  | cons c s ih =>
      show parseStrB ((escChar c ++ escape s) ++ '"' :: rest) = _
      rw [List.append_assoc]
      unfold escChar
      split_ifs with h1 h2 h3 h4 h5 h6 h7 h8
      · subst h1
        simp only [List.cons_append, List.nil_append, parseStrB_esc_q, ih,
          mapCons]
      · subst h2
        simp only [List.cons_append, List.nil_append, parseStrB_esc_bs, ih,
          mapCons]
      · subst h3
        simp only [List.cons_append, List.nil_append, parseStrB_esc_n, ih,
          mapCons]
      · subst h4
        simp only [List.cons_append, List.nil_append, parseStrB_esc_t, ih,
          mapCons]
      · subst h5
        simp only [List.cons_append, List.nil_append, parseStrB_esc_cr, ih,
          mapCons]
      · have hc : Char.ofNat 8 = c := by rw [← h6, Char.ofNat_toNat]
        simp only [List.cons_append, List.nil_append, parseStrB_esc_b, ih,
          mapCons, hc]
      · have hc : Char.ofNat 12 = c := by rw [← h7, Char.ofNat_toNat]
        simp only [List.cons_append, List.nil_append, parseStrB_esc_f, ih,
          mapCons, hc]
      · have hdiv : c.toNat / 16 < 16 := by omega
        have hmod : c.toNat % 16 < 16 := Nat.mod_lt _ (by omega)
        simp only [List.cons_append, List.nil_append,
          parseStrB_esc_u _ _ (isHexC_hexDigit hdiv) (isHexC_hexDigit hmod),
          ih, mapCons]
        have hc : Char.ofNat
            (hexVal (hexDigit (c.toNat / 16)) * 16 +
              hexVal (hexDigit (c.toNat % 16))) = c := by
          rw [hexVal_hexDigit hdiv, hexVal_hexDigit hmod]
          have := Nat.div_add_mod c.toNat 16
          have h16 : c.toNat / 16 * 16 + c.toNat % 16 = c.toNat := by omega
          rw [h16, Char.ofNat_toNat]
        rw [hc]
      · simp only [List.cons_append, List.nil_append, parseStrB_plain h1 h2,
          ih, mapCons]

theorem digit_ne {c x : Char} (h : isDigitC c = true)
    (hx : isDigitC x = false) : c ≠ x :=
  fun he => by rw [he, hx] at h; exact absurd h (by decide)

theorem not_ws_of_digit {c : Char} (h : isDigitC c = true) :
    isWsC c = false := by
  cases hw : isWsC c
  · rfl
  · exfalso
    simp only [isWsC, decide_eq_true_eq] at hw
    rcases hw with h1 | h1 | h1 | h1 <;> (subst h1; exact absurd h (by decide))

theorem natSer_cons (n : Nat) :
    ∃ d ds, natSer n = d :: ds ∧ isDigitC d = true := by
  cases hn : natSer n with
  | nil => exact absurd hn (natSer_ne_nil n)
  | cons d ds => exact ⟨d, ds, rfl, natSer_all_digits n d (by rw [hn]; simp)⟩

/-- Every serialized value starts with a non-whitespace character that is
not a closing bracket or brace. -/
theorem serAt_shape (k : Nat) (j : Json) :
    ∃ c t, serAt k j = c :: t ∧ isWsC c = false ∧ c ≠ ']' ∧ c ≠ rbr := by
  cases j with
  | jnull => exact ⟨'n', _, rfl, by decide, by decide, by decide⟩
  | jbool b =>
      cases b
      · exact ⟨'f', _, rfl, by decide, by decide, by decide⟩
      · exact ⟨'t', _, rfl, by decide, by decide, by decide⟩
  | jnum n =>
      by_cases hneg : n < 0
      · refine ⟨'-', natSer n.natAbs, ?_, by decide, by decide, by decide⟩
        simp [serAt, serInt, hneg]
      · obtain ⟨d, ds, hnat, hd⟩ := natSer_cons n.natAbs
        refine ⟨d, ds, ?_, not_ws_of_digit hd, digit_ne hd (by decide),
          digit_ne hd (by decide)⟩
        simp [serAt, serInt, hneg, hnat]
  | jstr s => exact ⟨'"', _, rfl, by decide, by decide, by decide⟩
  | jarr xs =>
      cases xs with
      | nil => exact ⟨'[', _, rfl, by decide, by decide, by decide⟩
      | cons x xs => exact ⟨'[', _, rfl, by decide, by decide, by decide⟩
  | jobj fl =>
      cases fl with
      | nil => exact ⟨lbr, _, rfl, by decide, by decide, by decide⟩
      | cons f fl => exact ⟨lbr, _, rfl, by decide, by decide, by decide⟩

theorem noDigitHead_serList (k : Nat) (xs : List Json) {t : Str}
    (ht : noDigitHead t) : noDigitHead (serList k xs ++ t) := by
  cases xs with
  | nil => exact ht
  | cons x xs =>
      simp only [serList, List.cons_append]
      show isDigitC ',' = false
      decide

theorem noDigitHead_serFields (k : Nat) (fl : List (Str × Json)) {t : Str}
    (ht : noDigitHead t) : noDigitHead (serFields k fl ++ t) := by
  cases fl with
  | nil => exact ht
  | cons f fl =>
      simp only [serFields, List.cons_append]
      show isDigitC ',' = false
      decide

theorem jsizeV_pos (j : Json) : 1 ≤ jsizeV j := by
  cases j <;> simp [jsizeV]

theorem jsizeL_pos (xs : List Json) : 1 ≤ jsizeL xs := by
  cases xs <;> simp [jsizeL] <;> omega

theorem jsizeF_pos (fl : List (Str × Json)) : 1 ≤ jsizeF fl := by
  cases fl <;> simp [jsizeF] <;> omega

/-- Keys of an object list, used for the duplicate-key invariant. -/
theorem nodupKeys_cons {p : Str × Json} {t : List (Str × Json)}
    (h : nodupKeys (p :: t) = true) :
    (∀ q ∈ t, q.1 ≠ p.1) ∧ nodupKeys t = true := by
  obtain ⟨k, v⟩ := p
  simp only [nodupKeys, Bool.and_eq_true, Bool.not_eq_true',
    List.any_eq_false] at h
  refine ⟨fun q hq => ?_, h.2⟩
  have := h.1 q hq
  simpa using this

theorem objInsert_fresh (l : List (Str × Json)) (k : Str) (v : Json)
    (h : ∀ q ∈ l, q.1 ≠ k) : objInsert l k v = l ++ [(k, v)] := by
  induction l with
  | nil => rfl
  | cons q t ih =>
      obtain ⟨k', v'⟩ := q
      have hk : k' ≠ k := h (k', v') (by simp)
      simp only [objInsert, if_neg hk, List.cons_append]
      rw [ih fun q hq => h q (by simp [hq])]

theorem insertAll_nodup_eq (l : List (Str × Json)) :
    ∀ acc : List (Str × Json), (∀ p ∈ l, ∀ q ∈ acc, q.1 ≠ p.1) →
    List.Pairwise (fun a b => a.1 ≠ b.1) l → insertAll acc l = acc ++ l := by
  induction l with
  | nil => intro acc _ _; simp [insertAll]
  | cons p t ih =>
      intro acc hfresh hpw
      have h1 : objInsert acc p.1 p.2 = acc ++ [p] := by
        rw [objInsert_fresh acc p.1 p.2 fun q hq => hfresh p (by simp) q hq]
      rw [List.pairwise_cons] at hpw
      have hfresh' : ∀ x ∈ t, ∀ q ∈ acc ++ [p], q.1 ≠ x.1 := by
        intro x hx q hq
        rcases List.mem_append.mp hq with hq1 | hq2
        · exact hfresh x (by simp [hx]) q hq1
        · have : q = p := by simpa using hq2
          subst this
          exact hpw.1 x hx
      show insertAll (objInsert acc p.1 p.2) t = acc ++ p :: t
      rw [h1, ih (acc ++ [p]) hfresh' hpw.2]
      simp

theorem nodupKeys_pairwise (l : List (Str × Json)) (h : nodupKeys l = true) :
    List.Pairwise (fun a b => a.1 ≠ b.1) l := by
  induction l with
  | nil => exact List.Pairwise.nil
  | cons p t ih =>
      obtain ⟨hne, ht⟩ := nodupKeys_cons h
      exact List.Pairwise.cons (fun q hq => (hne q hq).symm) (ih ht)

theorem noDigitHead_cons {c : Char} (h : isDigitC c = false) (t : Str) :
    noDigitHead (c :: t) := h

theorem nl_ind_ws (k : Nat) : ∀ c ∈ ('\n' :: ind k : Str), isWsC c = true := by
  intro c hc
  rcases List.mem_cons.mp hc with h | h
  · subst h; decide
  · exact ind_all_ws k c h

theorem sp_ws : ∀ c ∈ ([' '] : Str), isWsC c = true := by
  intro c hc
  simp at hc
  subst hc
  decide

theorem skipWs_pre {pre : Str} (hpre : ∀ c ∈ pre, isWsC c = true)
    {c : Char} (hc : isWsC c = false) (t : Str) :
    skipWs (pre ++ (c :: t)) = c :: t := by
  rw [skipWs_all_ws _ hpre, skipWs_not_ws _ hc]

theorem insertAll_of_nodup (l : List (Str × Json)) (h : nodupKeys l = true) :
    insertAll [] l = l := by
  have := insertAll_nodup_eq l [] (by simp) (nodupKeys_pairwise l h)
  simpa using this

/-! ### Round-trip: `parseVal` inverts `serAt` on well-formed values -/

mutual

theorem rt_val (j : Json) (k : Nat) (pre rest : Str)
    (hpre : ∀ c ∈ pre, isWsC c = true) (hwf : jwfB j = true)
    (hrest : noDigitHead rest) :
    ∀ fuel : Nat, jsizeV j ≤ fuel →
      parseVal fuel (pre ++ serAt k j ++ rest) = some (j, rest) := by
  intro fuel hfuel
  cases fuel with
  | zero => exact absurd hfuel (by have := jsizeV_pos j; omega)
  | succ F =>
      rw [List.append_assoc]
      cases hj : j with
      | jnull =>
          have hform : serAt k .jnull ++ rest = 'n' :: ("ull".data ++ rest) :=
            rfl
          rw [hform, parseVal.eq_2, skipWs_pre hpre (by decide)]
          simp [show isPre ['u', 'l', 'l'] ('u' :: 'l' :: 'l' :: rest) = true
            from isPre_append ['u', 'l', 'l'] rest]
      | jbool b =>
          cases b with
          | true =>
              have hform : serAt k (.jbool true) ++ rest =
                  't' :: ("rue".data ++ rest) := rfl
              rw [hform, parseVal.eq_2, skipWs_pre hpre (by decide)]
              simp [show isPre ['r', 'u', 'e'] ('r' :: 'u' :: 'e' :: rest) = true
                from isPre_append ['r', 'u', 'e'] rest]
          | false =>
              have hform : serAt k (.jbool false) ++ rest =
                  'f' :: ("alse".data ++ rest) := rfl
              rw [hform, parseVal.eq_2, skipWs_pre hpre (by decide)]
              simp [show isPre ['a', 'l', 's', 'e']
                  ('a' :: 'l' :: 's' :: 'e' :: rest) = true
                from isPre_append ['a', 'l', 's', 'e'] rest]
      | jnum n =>
          rcases Int.lt_or_le n 0 with hneg | hpos
          · have hform : serAt k (.jnum n) ++ rest =
                '-' :: (natSer n.natAbs ++ rest) := by
              simp [serAt, serInt, hneg]
            rw [hform, parseVal.eq_2, skipWs_pre hpre (by decide)]
            simp [headDigit_natSer, parseNatTok_natSer _ _ hrest]
            rw [abs_of_neg hneg, neg_neg]
          · obtain ⟨d, ds, hnat, hd⟩ := natSer_cons n.natAbs
            have hform : serAt k (.jnum n) ++ rest = d :: (ds ++ rest) := by
              show serInt n ++ rest = _
              rw [serInt, if_neg (by omega : ¬n < 0), hnat]
              rfl
            rw [hform, parseVal.eq_2,
              skipWs_pre hpre (not_ws_of_digit hd)]
            have h1 : d ≠ 'n' := digit_ne hd (by decide)
            have h2 : d ≠ 't' := digit_ne hd (by decide)
            have h3 : d ≠ 'f' := digit_ne hd (by decide)
            have h4 : d ≠ '"' := digit_ne hd (by decide)
            have h5 : d ≠ '-' := digit_ne hd (by decide)
            have hfold : d :: (ds ++ rest) = natSer n.natAbs ++ rest := by
              rw [hnat]; rfl
            simp [h1, h2, h3, h4, h5, hd, hfold,
              parseNatTok_natSer _ _ hrest]
            exact hpos
      | jstr s =>
          have hform : serAt k (.jstr s) ++ rest =
              '"' :: (escape s ++ '"' :: rest) := by
            simp [serAt]
          rw [hform, parseVal.eq_2, skipWs_pre hpre (by decide)]
          simp [parseStrB_escape]
      | jarr xs0 =>
          cases xs0 with
          | nil =>
              have hform : serAt k (.jarr []) ++ rest = '[' :: (']' :: rest) :=
                rfl
              rw [hform, parseVal.eq_2, skipWs_pre hpre (by decide)]
              have h2 : skipWs (']' :: rest) = ']' :: rest :=
                skipWs_not_ws _ (by decide)
              simp [h2, headIs, (by decide : isDigitC '[' = false)]
          | cons x xs =>
              rw [hj] at hwf hfuel
              have hwf2 : jwfB x = true ∧ jwfL xs = true := by
                simp only [jwfB, jwfL, Bool.and_eq_true] at hwf
                exact hwf
              simp only [jsizeV, jsizeL] at hfuel
              have hform : serAt k (.jarr (x :: xs)) ++ rest =
                  '[' :: ('\n' :: (ind (k + 1) ++ (serAt (k + 1) x ++
                    (serList (k + 1) xs ++
                      ('\n' :: (ind k ++ (']' :: rest))))))) := by
                simp [serAt]
              rw [hform, parseVal.eq_2, skipWs_pre hpre (by decide)]
              obtain ⟨c0, t0, hser, hws0, hne0, _⟩ := serAt_shape (k + 1) x
              have hsk : skipWs ('\n' :: (ind (k + 1) ++ (serAt (k + 1) x ++
                  (serList (k + 1) xs ++
                    ('\n' :: (ind k ++ (']' :: rest))))))) =
                  serAt (k + 1) x ++ (serList (k + 1) xs ++
                    ('\n' :: (ind k ++ (']' :: rest)))) := by
                rw [skipWs_nl_ind, hser]
                exact skipWs_not_ws _ hws0
              have hheadIs : headIs (serAt (k + 1) x ++ (serList (k + 1) xs ++
                  ('\n' :: (ind k ++ (']' :: rest))))) ']' = false := by
                rw [hser]
                simp [headIs, hne0]
              have hx : parseVal F ('\n' :: (ind (k + 1) ++ (serAt (k + 1) x ++
                  (serList (k + 1) xs ++
                    ('\n' :: (ind k ++ (']' :: rest))))))) =
                  some (x, serList (k + 1) xs ++
                    ('\n' :: (ind k ++ (']' :: rest)))) := by
                have := rt_val x (k + 1) ('\n' :: ind (k + 1))
                  (serList (k + 1) xs ++ ('\n' :: (ind k ++ (']' :: rest))))
                  (nl_ind_ws (k + 1)) hwf2.1
                  (noDigitHead_serList (k + 1) xs
                    (noDigitHead_cons (by decide) _)) F (by omega)
                simpa using this
              have hxs : parseElems F (serList (k + 1) xs ++
                  ('\n' :: (ind k ++ (']' :: rest)))) = some (xs, rest) :=
                rt_list xs (k + 1) k rest hwf2.2 F (by omega)
              simp [hsk, hheadIs, hx, hxs,
                (by decide : isDigitC '[' = false)]
      | jobj fl0 =>
          cases fl0 with
          | nil =>
              have hform : serAt k (.jobj []) ++ rest = lbr :: (rbr :: rest) :=
                rfl
              rw [hform, parseVal.eq_2, skipWs_pre hpre (by decide)]
              have h2 : skipWs (rbr :: rest) = rbr :: rest :=
                skipWs_not_ws _ (by decide)
              simp [h2, headIs, (by decide : isDigitC lbr = false),
                (by decide : lbr ≠ 'n'), (by decide : lbr ≠ 't'),
                (by decide : lbr ≠ 'f'), (by decide : lbr ≠ '"'),
                (by decide : lbr ≠ '-'), (by decide : lbr ≠ '[')]
          | cons f fl =>
              rw [hj] at hwf hfuel
              have hwf2 : nodupKeys (f :: fl) = true ∧ jwfB f.2 = true ∧
                  jwfF fl = true := by
                obtain ⟨key, v⟩ := f
                simp only [jwfB, jwfF, Bool.and_eq_true] at hwf
                exact ⟨hwf.1, hwf.2.1, hwf.2.2⟩
              simp only [jsizeV, jsizeF] at hfuel
              have hform : serAt k (.jobj (f :: fl)) ++ rest =
                  lbr :: ('\n' :: (ind (k + 1) ++ (serField (k + 1) f ++
                    (serFields (k + 1) fl ++
                      ('\n' :: (ind k ++ (rbr :: rest))))))) := by
                simp [serAt]
              rw [hform, parseVal.eq_2, skipWs_pre hpre (by decide)]
              have hfshape : ∃ t1, serField (k + 1) f = '"' :: t1 := by
                obtain ⟨key, v⟩ := f
                exact ⟨_, rfl⟩
              obtain ⟨t1, hser⟩ := hfshape
              have hsk : skipWs ('\n' :: (ind (k + 1) ++ (serField (k + 1) f ++
                  (serFields (k + 1) fl ++
                    ('\n' :: (ind k ++ (rbr :: rest))))))) =
                  serField (k + 1) f ++ (serFields (k + 1) fl ++
                    ('\n' :: (ind k ++ (rbr :: rest)))) := by
                rw [skipWs_nl_ind, hser]
                exact skipWs_not_ws _ (by decide)
              have hheadIs : headIs (serField (k + 1) f ++
                  (serFields (k + 1) fl ++
                    ('\n' :: (ind k ++ (rbr :: rest))))) rbr = false := by
                rw [hser]
                simp [headIs]
                decide
              have hf : parsePair F ('\n' :: (ind (k + 1) ++
                  (serField (k + 1) f ++ (serFields (k + 1) fl ++
                    ('\n' :: (ind k ++ (rbr :: rest))))))) =
                  some (f, serFields (k + 1) fl ++
                    ('\n' :: (ind k ++ (rbr :: rest)))) := by
                have := rt_pair f (k + 1) ('\n' :: ind (k + 1))
                  (serFields (k + 1) fl ++ ('\n' :: (ind k ++ (rbr :: rest))))
                  (nl_ind_ws (k + 1)) hwf2.2.1
                  (noDigitHead_serFields (k + 1) fl
                    (noDigitHead_cons (by decide) _)) F (by omega)
                simpa using this
              have hfl : parseFieldsMore F (serFields (k + 1) fl ++
                  ('\n' :: (ind k ++ (rbr :: rest)))) = some (fl, rest) :=
                rt_fields fl (k + 1) k rest hwf2.2.2 F (by omega)
              have hins : insertAll [] (f :: fl) = f :: fl :=
                insertAll_of_nodup _ hwf2.1
              simp [hsk, hheadIs, hf, hfl, hins,
                (by decide : isDigitC lbr = false),
                (by decide : lbr ≠ 'n'), (by decide : lbr ≠ 't'),
                (by decide : lbr ≠ 'f'), (by decide : lbr ≠ '"'),
                (by decide : lbr ≠ '-'), (by decide : lbr ≠ '[')]
  termination_by jsizeV j
  decreasing_by
    all_goals rw [hj]
    all_goals simp [jsizeV, jsizeL, jsizeF]
    all_goals omega

theorem rt_list (xs : List Json) (k k2 : Nat) (rest : Str)
    (hwf : jwfL xs = true) :
    ∀ fuel : Nat, jsizeL xs ≤ fuel →
      parseElems fuel (serList k xs ++ ('\n' :: (ind k2 ++ (']' :: rest)))) =
        some (xs, rest) := by
  intro fuel hfuel
  cases fuel with
  | zero => exact absurd hfuel (by have := jsizeL_pos xs; omega)
  | succ F =>
      cases hxs : xs with
      | nil =>
          rw [parseElems.eq_2]
          have hsk : skipWs (serList k [] ++
              ('\n' :: (ind k2 ++ (']' :: rest)))) = ']' :: rest := by
            show skipWs ('\n' :: (ind k2 ++ (']' :: rest))) = _
            rw [skipWs_nl_ind]
            exact skipWs_not_ws _ (by decide)
          simp [hsk, headIs]
      | cons x xs =>
          rw [hxs] at hwf hfuel
          have hwf2 : jwfB x = true ∧ jwfL xs = true := by
            simp only [jwfL, Bool.and_eq_true] at hwf
            exact hwf
          simp only [jsizeL] at hfuel
          rw [parseElems.eq_2]
          have hform : serList k (x :: xs) ++
              ('\n' :: (ind k2 ++ (']' :: rest))) =
              ',' :: ('\n' :: (ind k ++ (serAt k x ++ (serList k xs ++
                ('\n' :: (ind k2 ++ (']' :: rest))))))) := by
            simp [serList]
          rw [hform]
          have hsk : skipWs (',' :: ('\n' :: (ind k ++ (serAt k x ++
              (serList k xs ++ ('\n' :: (ind k2 ++ (']' :: rest)))))))) =
              ',' :: ('\n' :: (ind k ++ (serAt k x ++ (serList k xs ++
                ('\n' :: (ind k2 ++ (']' :: rest))))))) :=
            skipWs_not_ws _ (by decide)
          have hx : parseVal F ('\n' :: (ind k ++ (serAt k x ++
              (serList k xs ++ ('\n' :: (ind k2 ++ (']' :: rest))))))) =
              some (x, serList k xs ++ ('\n' :: (ind k2 ++ (']' :: rest)))) := by
            have := rt_val x k ('\n' :: ind k)
              (serList k xs ++ ('\n' :: (ind k2 ++ (']' :: rest))))
              (nl_ind_ws k) hwf2.1
              (noDigitHead_serList k xs (noDigitHead_cons (by decide) _))
              F (by omega)
            simpa using this
          have hxs : parseElems F (serList k xs ++
              ('\n' :: (ind k2 ++ (']' :: rest)))) = some (xs, rest) :=
            rt_list xs k k2 rest hwf2.2 F (by omega)
          simp [hsk, headIs, hx, hxs]
  termination_by jsizeL xs
  decreasing_by
    all_goals rw [hxs]
    all_goals simp [jsizeV, jsizeL, jsizeF]
    all_goals omega

theorem rt_pair (f : Str × Json) (k : Nat) (pre rest : Str)
    (hpre : ∀ c ∈ pre, isWsC c = true) (hwf : jwfB f.2 = true)
    (hrest : noDigitHead rest) :
    ∀ fuel : Nat, jsizeV f.2 < fuel →
      parsePair fuel (pre ++ serField k f ++ rest) = some (f, rest) := by
  intro fuel hfuel
  cases fuel with
  | zero => exact absurd hfuel (by omega)
  | succ F =>
      rw [List.append_assoc, parsePair.eq_2]
      have hserf : serField k f =
          '"' :: (escape f.1 ++ '"' :: (':' :: (' ' :: serAt k f.2))) := by
        obtain ⟨key, v⟩ := f
        rfl
      have hform : serField k f ++ rest =
          '"' :: (escape f.1 ++ '"' ::
            (':' :: (' ' :: (serAt k f.2 ++ rest)))) := by
        rw [hserf]
        simp
      rw [hform, skipWs_pre hpre (by decide)]
      have hstr : parseStrB (escape f.1 ++ '"' ::
          (':' :: (' ' :: (serAt k f.2 ++ rest)))) =
          some (f.1, ':' :: (' ' :: (serAt k f.2 ++ rest))) :=
        parseStrB_escape f.1 _
      have hsk2 : skipWs (':' :: (' ' :: (serAt k f.2 ++ rest))) =
          ':' :: (' ' :: (serAt k f.2 ++ rest)) :=
        skipWs_not_ws _ (by decide)
      have hv : parseVal F (' ' :: (serAt k f.2 ++ rest)) =
          some (f.2, rest) := by
        have := rt_val f.2 k [' '] rest sp_ws hwf hrest F (by omega)
        simpa using this
      simp [headIs, hstr, hsk2, hv]
  termination_by jsizeV f.2 + 1
  decreasing_by
    all_goals simp [jsizeV, jsizeL, jsizeF]
    all_goals omega

theorem rt_fields (fl : List (Str × Json)) (k k2 : Nat) (rest : Str)
    (hwf : jwfF fl = true) :
    ∀ fuel : Nat, jsizeF fl ≤ fuel →
      parseFieldsMore fuel
          (serFields k fl ++ ('\n' :: (ind k2 ++ (rbr :: rest)))) =
        some (fl, rest) := by
  intro fuel hfuel
  cases fuel with
  | zero => exact absurd hfuel (by have := jsizeF_pos fl; omega)
  | succ F =>
      cases hfl : fl with
      | nil =>
          rw [parseFieldsMore.eq_2]
          have hsk : skipWs (serFields k [] ++
              ('\n' :: (ind k2 ++ (rbr :: rest)))) = rbr :: rest := by
            show skipWs ('\n' :: (ind k2 ++ (rbr :: rest))) = _
            rw [skipWs_nl_ind]
            exact skipWs_not_ws _ (by decide)
          simp [hsk, headIs]
      | cons f ft =>
          rw [hfl] at hwf hfuel
          have hwf2 : jwfB f.2 = true ∧ jwfF ft = true := by
            obtain ⟨key, v⟩ := f
            simp only [jwfF, Bool.and_eq_true] at hwf
            exact hwf
          simp only [jsizeF] at hfuel
          rw [parseFieldsMore.eq_2]
          have hform : serFields k (f :: ft) ++
              ('\n' :: (ind k2 ++ (rbr :: rest))) =
              ',' :: ('\n' :: (ind k ++ (serField k f ++ (serFields k ft ++
                ('\n' :: (ind k2 ++ (rbr :: rest))))))) := by
            simp [serFields]
          rw [hform]
          have hsk : skipWs (',' :: ('\n' :: (ind k ++ (serField k f ++
              (serFields k ft ++ ('\n' :: (ind k2 ++ (rbr :: rest)))))))) =
              ',' :: ('\n' :: (ind k ++ (serField k f ++ (serFields k ft ++
                ('\n' :: (ind k2 ++ (rbr :: rest))))))) :=
            skipWs_not_ws _ (by decide)
          have hp : parsePair F ('\n' :: (ind k ++ (serField k f ++
              (serFields k ft ++ ('\n' :: (ind k2 ++ (rbr :: rest))))))) =
              some (f, serFields k ft ++
                ('\n' :: (ind k2 ++ (rbr :: rest)))) := by
            have := rt_pair f k ('\n' :: ind k)
              (serFields k ft ++ ('\n' :: (ind k2 ++ (rbr :: rest))))
              (nl_ind_ws k) hwf2.1
              (noDigitHead_serFields k ft (noDigitHead_cons (by decide) _))
              F (by omega)
            simpa using this
          have hmore : parseFieldsMore F (serFields k ft ++
              ('\n' :: (ind k2 ++ (rbr :: rest)))) = some (ft, rest) :=
            rt_fields ft k k2 rest hwf2.2 F (by omega)
          simp [hsk, headIs, hp, hmore]
          decide
  termination_by jsizeF fl
  decreasing_by
    all_goals rw [hfl]
    all_goals simp [jsizeV, jsizeL, jsizeF]
    all_goals omega

end

mutual

theorem len_serAt (k : Nat) (j : Json) : jsizeV j ≤ (serAt k j).length := by
  cases hj : j with
  | jnull => simp [serAt, jsizeV]
  | jbool b => cases b <;> simp [serAt, jsizeV]
  | jnum n =>
      obtain ⟨d, ds, hnat⟩ := natSer_cons n.natAbs
      simp only [serAt, serInt, jsizeV]
      split_ifs <;> simp [hnat.1]
  | jstr s => simp [serAt, jsizeV]
  | jarr xs0 =>
      cases xs0 with
      | nil => simp [serAt, jsizeV, jsizeL]
      | cons x xs =>
          have h1 := len_serAt (k + 1) x
          have h2 := len_serList (k + 1) xs
          simp only [serAt, jsizeV, jsizeL]
          simp
          omega
  | jobj fl0 =>
      cases fl0 with
      | nil => simp [serAt, jsizeV, jsizeF]
      | cons f fl =>
          have h1 := len_serField (k + 1) f
          have h2 := len_serFields (k + 1) fl
          simp only [serAt, jsizeV, jsizeF]
          simp
          omega
  termination_by jsizeV j
  decreasing_by
    all_goals simp_all [jsizeV, jsizeL, jsizeF]
    all_goals omega

theorem len_serList (k : Nat) (xs : List Json) :
    jsizeL xs ≤ (serList k xs).length + 1 := by
  cases hxs : xs with
  | nil => simp [serList, jsizeL]
  | cons x t =>
      have h1 := len_serAt k x
      have h2 := len_serList k t
      simp only [serList, jsizeL]
      simp
      omega
  termination_by jsizeL xs
  decreasing_by
    all_goals simp_all [jsizeV, jsizeL, jsizeF]
    all_goals omega

theorem len_serField (k : Nat) (f : Str × Json) :
    jsizeV f.2 + 1 ≤ (serField k f).length := by
  have h1 := len_serAt k f.2
  obtain ⟨key, v⟩ := f
  simp only [serField]
  simp at h1 ⊢
  omega
  termination_by jsizeV f.2 + 1
  decreasing_by
    all_goals simp [jsizeV, jsizeL, jsizeF]
    all_goals omega

theorem len_serFields (k : Nat) (fl : List (Str × Json)) :
    jsizeF fl ≤ (serFields k fl).length + 1 := by
  cases hfl : fl with
  | nil => simp [serFields, jsizeF]
  | cons f ft =>
      have h1 := len_serField k f
      have h2 := len_serFields k ft
      simp only [serFields, jsizeF]
      simp at h1 ⊢
      omega
  termination_by jsizeF fl
  decreasing_by
    all_goals simp_all [jsizeV, jsizeL, jsizeF]
    all_goals omega

end

/-- `JSON.parse` inverts `JSON.stringify(v, null, 2)` followed by the
trailing newline the script appends, on values with unique object keys. -/
theorem parseJson_ser (j : Json) (hwf : jwfB j = true) :
    parseJson (serTop j ++ ['\n']) = some j := by
  have hlen : jsizeV j ≤ (serTop j ++ ['\n']).length + 1 := by
    have := len_serAt 0 j
    simp only [serTop] at *
    simp
    omega
  have hrt := rt_val j 0 [] ['\n'] (by simp) hwf
    (noDigitHead_cons (by decide) []) ((serTop j ++ ['\n']).length + 1) hlen
  simp only [List.nil_append] at hrt
  rw [show (serAt 0 j : Str) = serTop j from rfl] at hrt
  unfold parseJson
  rw [hrt]
  simp [show skipWs ['\n'] = ([] : Str) from rfl]

/-! ### `JSON.parse` output is well-formed -/

theorem jwfF_forall {l : List (Str × Json)} :
    jwfF l = true ↔ ∀ p ∈ l, jwfB p.2 = true := by
  induction l with
  | nil => simp [jwfF]
  | cons p t ih =>
      obtain ⟨k, v⟩ := p
      show (jwfB v && jwfF t) = true ↔ _
      rw [Bool.and_eq_true, ih]
      constructor
      · rintro ⟨h1, h2⟩ q hq
        rcases List.mem_cons.mp hq with h | h
        · subst h; exact h1
        · exact h2 q h
      · intro hall
        exact ⟨hall (k, v) (by simp), fun q hq => hall q (by simp [hq])⟩

theorem mem_objInsert {l : List (Str × Json)} {k : Str} {v : Json} :
    ∀ q ∈ objInsert l k v, q = (k, v) ∨ q ∈ l := by
  induction l with
  | nil =>
      intro q hq
      simp [objInsert] at hq
      exact Or.inl hq
  | cons p t ih =>
      obtain ⟨k', v'⟩ := p
      intro q hq
      by_cases he : k' = k
      · subst he
        simp only [objInsert, if_pos rfl] at hq
        rcases List.mem_cons.mp hq with h | h
        · exact Or.inl h
        · exact Or.inr (by simp [h])
      · simp only [objInsert, if_neg he] at hq
        rcases List.mem_cons.mp hq with h | h
        · exact Or.inr (by simp [h])
        · rcases ih q h with h' | h'
          · exact Or.inl h'
          · exact Or.inr (by simp [h'])

theorem nodupKeys_cons_intro {p : Str × Json} {t : List (Str × Json)}
    (h1 : ∀ q ∈ t, q.1 ≠ p.1) (h2 : nodupKeys t = true) :
    nodupKeys (p :: t) = true := by
  obtain ⟨k, v⟩ := p
  simp only [nodupKeys, Bool.and_eq_true, Bool.not_eq_true', List.any_eq_false]
  exact ⟨fun q hq => by simpa using h1 q hq, h2⟩

theorem nodupKeys_objInsert {l : List (Str × Json)} (k : Str) (v : Json)
    (h : nodupKeys l = true) : nodupKeys (objInsert l k v) = true := by
  induction l with
  | nil => rfl
  | cons p t ih =>
      obtain ⟨k', v'⟩ := p
      obtain ⟨hfr, ht⟩ := nodupKeys_cons h
      by_cases he : k' = k
      · subst he
        simp only [objInsert, if_pos rfl]
        exact nodupKeys_cons_intro (fun q hq => hfr q hq) ht
      · simp only [objInsert, if_neg he]
        refine nodupKeys_cons_intro (fun q hq => ?_) (ih ht)
        rcases mem_objInsert q hq with h' | h'
        · subst h'
          exact fun hc => he hc.symm
        · exact hfr q h'

theorem jwfF_objInsert {l : List (Str × Json)} (k : Str) (v : Json)
    (hl : jwfF l = true) (hv : jwfB v = true) :
    jwfF (objInsert l k v) = true := by
  rw [jwfF_forall] at hl ⊢
  intro q hq
  rcases mem_objInsert q hq with h | h
  · subst h
    exact hv
  · exact hl q h

theorem insertAll_wf (pairs : List (Str × Json)) :
    ∀ acc : List (Str × Json), nodupKeys acc = true → jwfF acc = true →
      (∀ p ∈ pairs, jwfB p.2 = true) →
      nodupKeys (insertAll acc pairs) = true ∧
        jwfF (insertAll acc pairs) = true := by
  induction pairs with
  | nil => intro acc h1 h2 _; exact ⟨h1, h2⟩
  | cons p t ih =>
      intro acc h1 h2 h3
      show nodupKeys (insertAll (objInsert acc p.1 p.2) t) = true ∧ _
      exact ih (objInsert acc p.1 p.2)
        (nodupKeys_objInsert p.1 p.2 h1)
        (jwfF_objInsert p.1 p.2 h2 (h3 p (by simp)))
        (fun q hq => h3 q (by simp [hq]))

theorem jwf_obj_insertAll (pairs : List (Str × Json))
    (h : ∀ p ∈ pairs, jwfB p.2 = true) :
    jwfB (.jobj (insertAll [] pairs)) = true := by
  obtain ⟨h1, h2⟩ := insertAll_wf pairs [] rfl rfl h
  simp [jwfB, h1, h2]

section

set_option maxHeartbeats 1000000

mutual

theorem pw_val : ∀ (fuel : Nat) (s : Str) (j : Json) (r : Str),
    parseVal fuel s = some (j, r) → jwfB j = true
  | 0, s, j, r => by
      intro h
      rw [parseVal.eq_1] at h
      exact Option.noConfusion h
  | fuel + 1, s, j, r => by
      intro h
      rw [parseVal.eq_2] at h
      split at h
      case _ => exact Option.noConfusion h
      case _ c r0 _ =>
          split_ifs at h
          all_goals try exact Option.noConfusion h
          all_goals try
            (simp only [Option.some.injEq, Prod.mk.injEq] at h
             obtain ⟨hj, hr⟩ := h
             subst hj
             rfl)
          · cases hp : parseStrB r0 with
            | none => rw [hp] at h; exact Option.noConfusion h
            | some p =>
                obtain ⟨st, rest⟩ := p
                rw [hp] at h
                simp only [Option.some.injEq, Prod.mk.injEq] at h
                obtain ⟨hj, hr⟩ := h
                subst hj
                rfl
          · cases hp : parseNatTok r0 with
            | none => rw [hp] at h; exact Option.noConfusion h
            | some p =>
                obtain ⟨m, rest⟩ := p
                rw [hp] at h
                simp only [Option.some.injEq, Prod.mk.injEq] at h
                obtain ⟨hj, hr⟩ := h
                subst hj
                rfl
          · cases hp : parseNatTok (c :: r0) with
            | none => rw [hp] at h; exact Option.noConfusion h
            | some p =>
                obtain ⟨m, rest⟩ := p
                rw [hp] at h
                simp only [Option.some.injEq, Prod.mk.injEq] at h
                obtain ⟨hj, hr⟩ := h
                subst hj
                rfl
          · simp only [] at h
            split_ifs at h with hbr
            · simp only [Option.some.injEq, Prod.mk.injEq] at h
              obtain ⟨hj, hr⟩ := h
              subst hj
              rfl
            · cases hv : parseVal fuel r0 with
              | none => rw [hv] at h; exact Option.noConfusion h
              | some p =>
                  obtain ⟨v, r2⟩ := p
                  rw [hv] at h
                  simp only [] at h
                  cases he : parseElems fuel r2 with
                  | none => rw [he] at h; exact Option.noConfusion h
                  | some q =>
                      obtain ⟨vs, r3⟩ := q
                      rw [he] at h
                      simp only [Option.some.injEq, Prod.mk.injEq] at h
                      obtain ⟨hj, hr⟩ := h
                      subst hj
                      have hv' := pw_val fuel r0 v r2 hv
                      have hvs := pw_elems fuel r2 vs r3 he
                      simp [jwfB, jwfL, hv', hvs]
          · simp only [] at h
            split_ifs at h with hbr
            · simp only [Option.some.injEq, Prod.mk.injEq] at h
              obtain ⟨hj, hr⟩ := h
              subst hj
              rfl
            · cases hp : parsePair fuel r0 with
              | none => rw [hp] at h; exact Option.noConfusion h
              | some p =>
                  obtain ⟨kv, r2⟩ := p
                  rw [hp] at h
                  simp only [] at h
                  cases hf : parseFieldsMore fuel r2 with
                  | none => rw [hf] at h; exact Option.noConfusion h
                  | some q =>
                      obtain ⟨ps, r3⟩ := q
                      rw [hf] at h
                      simp only [Option.some.injEq, Prod.mk.injEq] at h
                      obtain ⟨hj, hr⟩ := h
                      subst hj
                      have hkv := pw_pair fuel r0 kv r2 hp
                      have hps := pw_fields fuel r2 ps r3 hf
                      refine jwf_obj_insertAll (kv :: ps) ?_
                      intro p hp'
                      rcases List.mem_cons.mp hp' with h' | h'
                      · subst h'; exact hkv
                      · exact (jwfF_forall.mp hps) p h'

theorem pw_elems : ∀ (fuel : Nat) (s : Str) (vs : List Json) (r : Str),
    parseElems fuel s = some (vs, r) → jwfL vs = true
  | 0, s, vs, r => by
      intro h
      rw [parseElems.eq_1] at h
      exact Option.noConfusion h
  | fuel + 1, s, vs, r => by
      intro h
      rw [parseElems.eq_2] at h
      split_ifs at h
      all_goals try exact Option.noConfusion h
      all_goals try
        (simp only [Option.some.injEq, Prod.mk.injEq] at h
         obtain ⟨hj, hr⟩ := h
         subst hj
         rfl)
      cases hv : parseVal fuel (skipWs s).tail with
      | none => rw [hv] at h; exact Option.noConfusion h
      | some p =>
          obtain ⟨v, r2⟩ := p
          rw [hv] at h
          simp only [] at h
          cases he : parseElems fuel r2 with
          | none => rw [he] at h; exact Option.noConfusion h
          | some q =>
              obtain ⟨vs2, r3⟩ := q
              rw [he] at h
              simp only [Option.some.injEq, Prod.mk.injEq] at h
              obtain ⟨hj, hr⟩ := h
              subst hj
              have hv' := pw_val fuel (skipWs s).tail v r2 hv
              have hvs := pw_elems fuel r2 vs2 r3 he
              simp [jwfL, hv', hvs]

theorem pw_pair : ∀ (fuel : Nat) (s : Str) (f : Str × Json) (r : Str),
    parsePair fuel s = some (f, r) → jwfB f.2 = true
  | 0, s, f, r => by
      intro h
      rw [parsePair.eq_1] at h
      exact Option.noConfusion h
  | fuel + 1, s, f, r => by
      intro h
      rw [parsePair.eq_2] at h
      split_ifs at h
      all_goals try exact Option.noConfusion h
      cases hp : parseStrB (skipWs s).tail with
      | none => rw [hp] at h; exact Option.noConfusion h
      | some p =>
          obtain ⟨key, r2⟩ := p
          rw [hp] at h
          simp only [] at h
          split_ifs at h
          all_goals try exact Option.noConfusion h
          cases hv : parseVal fuel (skipWs r2).tail with
          | none => rw [hv] at h; exact Option.noConfusion h
          | some q =>
              obtain ⟨v, r3⟩ := q
              rw [hv] at h
              simp only [] at h
              simp only [Option.some.injEq, Prod.mk.injEq] at h
              obtain ⟨hf, hr⟩ := h
              rw [← hf]
              exact pw_val fuel (skipWs r2).tail v r3 hv

theorem pw_fields : ∀ (fuel : Nat) (s : Str) (fl : List (Str × Json)) (r : Str),
    parseFieldsMore fuel s = some (fl, r) → jwfF fl = true
  | 0, s, fl, r => by
      intro h
      rw [parseFieldsMore.eq_1] at h
      exact Option.noConfusion h
  | fuel + 1, s, fl, r => by
      intro h
      rw [parseFieldsMore.eq_2] at h
      split_ifs at h
      all_goals try exact Option.noConfusion h
      all_goals try
        (simp only [Option.some.injEq, Prod.mk.injEq] at h
         obtain ⟨hj, hr⟩ := h
         subst hj
         rfl)
      cases hp : parsePair fuel (skipWs s).tail with
      | none => rw [hp] at h; exact Option.noConfusion h
      | some p =>
          obtain ⟨kv, r2⟩ := p
          rw [hp] at h
          simp only [] at h
          cases hf : parseFieldsMore fuel r2 with
          | none => rw [hf] at h; exact Option.noConfusion h
          | some q =>
              obtain ⟨ps, r3⟩ := q
              rw [hf] at h
              simp only [Option.some.injEq, Prod.mk.injEq] at h
              obtain ⟨hj, hr⟩ := h
              subst hj
              have hkv := pw_pair fuel (skipWs s).tail kv r2 hp
              have hps := pw_fields fuel r2 ps r3 hf
              obtain ⟨k0, v0⟩ := kv
              simp [jwfF, hkv, hps]

end

end

/-- `JSON.parse` only produces well-formed values. -/
theorem parseJson_wf {s : Str} {j : Json} (h : parseJson s = some j) :
    jwfB j = true := by
  unfold parseJson at h
  split at h
  case _ j0 rest heq =>
      split_ifs at h
      simp only [Option.some.injEq] at h
      exact h ▸ pw_val _ s j0 rest heq
  case _ => exact Option.noConfusion h

/-! ### Object field access lemmas -/

theorem jlookup_objInsert_self (l : List (Str × Json)) (k : Str) (v : Json) :
    jlookup (objInsert l k v) k = some v := by
  induction l with
  | nil => simp [objInsert, jlookup]
  | cons p t ih =>
      obtain ⟨k', v'⟩ := p
      by_cases he : k' = k
      · subst he
        simp [objInsert, jlookup]
      · simp [objInsert, jlookup, he, ih]

theorem jlookup_objInsert_ne (l : List (Str × Json)) (k : Str) (v : Json)
    (k2 : Str) (h : k2 ≠ k) :
    jlookup (objInsert l k v) k2 = jlookup l k2 := by
  induction l with
  | nil =>
      simp only [objInsert, jlookup]
      rw [if_neg (Ne.symm h)]
  | cons p t ih =>
      obtain ⟨k', v'⟩ := p
      by_cases he : k' = k
      · subst he
        simp only [objInsert, if_pos rfl, jlookup]
        rw [if_neg (Ne.symm h), if_neg (Ne.symm h)]
      · simp only [objInsert, if_neg he, jlookup]
        by_cases he2 : k' = k2
        · simp [he2]
        · simp [he2, ih]

theorem objInsert_lookup_id (l : List (Str × Json)) (k : Str) (v : Json)
    (h : jlookup l k = some v) : objInsert l k v = l := by
  induction l with
  | nil => simp [jlookup] at h
  | cons p t ih =>
      obtain ⟨k', v'⟩ := p
      by_cases he : k' = k
      · subst he
        have hv : v' = v := by simpa [jlookup] using h
        subst hv
        simp [objInsert]
      · simp only [jlookup, if_neg he] at h
        simp [objInsert, he, ih h]

theorem objInsert_objInsert (l : List (Str × Json)) (k : Str) (v : Json) :
    objInsert (objInsert l k v) k v = objInsert l k v := by
  induction l with
  | nil => simp [objInsert]
  | cons p t ih =>
      obtain ⟨k', v'⟩ := p
      by_cases he : k' = k
      · subst he
        simp [objInsert]
      · simp [objInsert, he, ih]

theorem setName_wf {j j' : Json} {v : Str} (hwf : jwfB j = true)
    (h : setName j v = some j') : jwfB j' = true := by
  cases j with
  | jobj fl =>
      simp only [setName, Option.some.injEq] at h
      subst h
      simp only [jwfB, Bool.and_eq_true] at hwf ⊢
      exact ⟨nodupKeys_objInsert _ _ hwf.1,
        jwfF_objInsert _ _ hwf.2 rfl⟩
  | jarr xs =>
      simp only [setName, Option.some.injEq] at h
      subst h
      exact hwf
  | jnull => simp [setName] at h
  | jbool b => simp [setName] at h
  | jnum n => simp [setName] at h
  | jstr s => simp [setName] at h

theorem setName_idem {j j' : Json} {v : Str} (h : setName j v = some j') :
    setName j' v = some j' := by
  cases j with
  | jobj fl =>
      simp only [setName, Option.some.injEq] at h
      subst h
      simp [setName, objInsert_objInsert]
  | jarr xs =>
      simp only [setName, Option.some.injEq] at h
      subst h
      simp [setName]
  | jnull => simp [setName] at h
  | jbool b => simp [setName] at h
  | jnum n => simp [setName] at h
  | jstr s => simp [setName] at h

/-! ### Filesystem model: a flat map from absolute paths to file contents -/

abbrev Fs := List (Str × Str)

def keys (fs : Fs) : List Str := fs.map (fun e => e.1)

def readFs : Fs → Str → Option Str
  | [], _ => none
  | e :: es, p => if e.1 = p then some e.2 else readFs es p

def writeFs : Fs → Str → Str → Fs
  | [], p, c => [(p, c)]
  | e :: es, p, c => if e.1 = p then (p, c) :: es else e :: writeFs es p c

def isFileB (fs : Fs) (p : Str) : Bool := (readFs fs p).isSome

/-- A path is a directory when some file lives strictly below it. -/
def isDirB (fs : Fs) (p : Str) : Bool :=
  fs.any (fun e => isPre (p ++ [sepC]) e.1)

/-- The script's `exists(p)`: `fs.statSync(p)` succeeds, i.e. `p` is a file
or a directory. -/
def fsExists (fs : Fs) (p : Str) : Bool := isFileB fs p || isDirB fs p

/-- `readDir(dir)` in the flat model: the distinct first path components of
entries strictly below `dir`. A missing directory yields `[]`, matching the
script's `readDir` helper which returns `[]` when `exists(dir)` fails. -/
def readDirFs (fs : Fs) (d : Str) : List Str :=
  (fs.filterMap (fun e =>
    if isPre (d ++ [sepC]) e.1 then
      some ((e.1.drop (d.length + 1)).takeWhile (fun c => decide (c ≠ sepC)))
    else none)).dedup

/-- `fs.promises.rm(p, { recursive: true, force: true })`. -/
def rmRec (fs : Fs) (p : Str) : Fs :=
  fs.filter (fun e => !(decide (e.1 = p) || isPre (p ++ [sepC]) e.1))

/-- The copied entries produced by `fs.promises.cp(src, dest,
{ recursive: true })`: the file at `src`, and every file below `src`, at the
corresponding path under `dest`. -/
def cpCopies (fs : Fs) (src dest : Str) : Fs :=
  fs.filterMap (fun e =>
    if e.1 = src then some (dest, e.2)
    else if isPre (src ++ [sepC]) e.1 then
      some (dest ++ sepC :: e.1.drop (src.length + 1), e.2)
    else none)

/-- `fs.promises.cp(src, dest, { recursive: true })`: copies take precedence
on lookup, mirroring overwrite semantics. -/
def cpRec (fs : Fs) (src dest : Str) : Fs := cpCopies fs src dest ++ fs

/-! ### The script `epicshop/fix.js` -/

def pkgPath (app : Str) : Str := app ++ sepC :: "package.json".data

def examplesRoot (root : Str) : Str := root ++ sepC :: "examples".data

def exercisesRoot (root : Str) : Str := root ++ sepC :: "exercises".data

/-- `const examples = (await readDir(here('../examples'))).map(dir =>
here('../examples/' + dir))`. The later `exampleApps` binding repeats this
very computation, so both are this function. -/
def examplesList (root : Str) (fs : Fs) : List Str :=
  (readDirFs fs (examplesRoot root)).map (fun d => examplesRoot root ++ sepC :: d)

/-- `const exercises = ...` — children of the exercises root kept only when
`fs.statSync(filepath).isDirectory()`. -/
def exercisesList (root : Str) (fs : Fs) : List Str :=
  ((readDirFs fs (exercisesRoot root)).map
    (fun d => exercisesRoot root ++ sepC :: d)).filter (fun p => isDirB fs p)

/-- `/(problem|solution)/.test(dir)`: the entry name contains `problem` or
`solution` as a substring. No directory check is applied here. -/
def variantTest (d : Str) : Bool :=
  hasSub ("problem".data) d || hasSub ("solution".data) d

/-- `const exerciseApps = ...`: for each exercise directory, its children
whose names match the variant pattern, joined onto the exercise path. -/
def exerciseAppsList (root : Str) (fs : Fs) : List Str :=
  (exercisesList root fs).bind (fun ex =>
    ((readDirFs fs ex).filter variantTest).map (fun d => ex ++ sepC :: d))

/-- `appsWithPkgJson = [...examples, ...apps].filter(app =>
exists(app/package.json))` where `apps = [...exampleApps, ...exerciseApps]`
and `examples` is listed a second time. -/
def appsWithPkgJson (root : Str) (fs : Fs) : List Str :=
  (examplesList root fs ++
    (examplesList root fs ++ exerciseAppsList root fs)).filter
    (fun app => fsExists fs (pkgPath app))

/-- `relativeToWorkshopRoot(dir)`: replace the first occurrence of
`workshopRoot + path.sep` with the empty string. -/
def relativeToWorkshopRoot (root dir : Str) : Str :=
  replaceFirst (root ++ [sepC]) [] dir

/-- The name computed for a project directory:
`relativeToWorkshopRoot(file).replace(/\\|\//g, '__sep__')`. -/
def candidateName (root dir : Str) : Str :=
  replaceSeps (relativeToWorkshopRoot root dir)

/-- Observable filesystem mutations, in program order: a manifest write
(which is also the `updated ...` console notification), a recursive test
directory removal, a recursive test directory copy. -/
inductive Ev where
  | wrote : Str → Ev
  | rmDir : Str → Ev
  | cpDir : Str → Str → Ev
  deriving DecidableEq

/-- `writeIfNeeded(filepath, content)`: re-read the file, write only when
the bytes differ, and report whether a write happened. -/
def writeIfNeeded (fs : Fs) (p c : Str) : Option (Fs × Bool) :=
  match readFs fs p with
  | none => none
  | some old => if old = c then some (fs, false) else some (writeFs fs p c, true)

/-- One iteration of the `updatePkgNames` loop: read and parse the
manifest, assign `pkg.name`, serialize with two-space indentation plus a
trailing newline, and write if needed. Any failure aborts the script. -/
def updateStep (root : Str) (fs : Fs) (app : Str) : Option (Fs × Bool) :=
  match readFs fs (pkgPath app) with
  | none => none
  | some s =>
      match parseJson s with
      | none => none
      | some pkg =>
          match setName pkg (candidateName root app) with
          | none => none
          | some pkg2 => writeIfNeeded fs (pkgPath app) (serTop pkg2 ++ ['\n'])

/-- `updatePkgNames()` over a list of app directories, returning the final
filesystem and the write events (one per `updated ...` notification). -/
def updatePkgNames (root : Str) (fs : Fs) : List Str → Option (Fs × List Ev)
  | [] => some (fs, [])
  | app :: rest =>
      match updateStep root fs app with
      | none => none
      | some st =>
          match updatePkgNames root st.1 rest with
          | none => none
          | some res =>
              some (res.1,
                (if st.2 then [Ev.wrote (pkgPath app)] else []) ++ res.2)

/-- One iteration of the `copyTestFiles` loop. -/
def mirrorStep (fs : Fs) (app : Str) : Fs × List Ev :=
  if hasSub ("problem".data) app then
    let solutionApp := replaceFirst ("problem".data) ("solution".data) app
    let testDir := solutionApp ++ sepC :: "tests".data
    let destTestDir := app ++ sepC :: "tests".data
    if fsExists fs testDir then
      if fsExists fs destTestDir then
        (cpRec (rmRec fs destTestDir) testDir destTestDir,
          [Ev.rmDir destTestDir, Ev.cpDir testDir destTestDir])
      else (cpRec fs testDir destTestDir, [Ev.cpDir testDir destTestDir])
    else (fs, [])
  else (fs, [])

/-- `copyTestFiles()` over the exercise apps. -/
def copyTestFiles (fs : Fs) : List Str → Fs × List Ev
  | [] => (fs, [])
  | app :: rest =>
      let st := mirrorStep fs app
      let st2 := copyTestFiles st.1 rest
      (st2.1, st.2 ++ st2.2)

/-- The Manifest Namer pass: `await updatePkgNames()` over the snapshot
list `appsWithPkgJson` computed from the starting filesystem. -/
def runNamer (root : Str) (fs : Fs) : Option (Fs × List Ev) :=
  updatePkgNames root fs (appsWithPkgJson root fs)

/-- The whole script: discovery lists are computed up front from the
initial filesystem, then `await updatePkgNames()`, then
`await copyTestFiles()`. -/
def runFix (root : Str) (fs : Fs) : Option (Fs × List Ev) :=
  match updatePkgNames root fs (appsWithPkgJson root fs) with
  | none => none
  | some res =>
      let m := copyTestFiles res.1 (exerciseAppsList root fs)
      some (m.1, res.2 ++ m.2)

/-- `solutionApp = app.replace('problem', 'solution')` (first occurrence). -/
def solutionAppOf (app : Str) : Str :=
  replaceFirst ("problem".data) ("solution".data) app

/-- `testDir = path.join(solutionApp, 'tests')`. -/
def solTestsDir (app : Str) : Str := solutionAppOf app ++ sepC :: "tests".data

/-- `destTestDir = path.join(app, 'tests')`. -/
def probTestsDir (app : Str) : Str := app ++ sepC :: "tests".data

/-- Whether an event is a manifest write (an `updated ...` notification). -/
def isWroteEv : Ev → Bool
  | Ev.wrote _ => true
  | _ => false

/-! ### Filesystem lemmas -/

theorem readFs_writeFs_self (fs : Fs) (p c : Str) :
    readFs (writeFs fs p c) p = some c := by
  induction fs with
  | nil => simp [writeFs, readFs]
  | cons e es ih =>
      by_cases he : e.1 = p
      · simp [writeFs, readFs, he]
      · simp [writeFs, readFs, he, ih]

theorem readFs_writeFs_ne (fs : Fs) (p c q : Str) (h : q ≠ p) :
    readFs (writeFs fs p c) q = readFs fs q := by
  induction fs with
  | nil =>
      simp only [writeFs, readFs]
      rw [if_neg (fun hc : p = q => h hc.symm)]
  | cons e es ih =>
      by_cases he : e.1 = p
      · subst he
        simp only [writeFs, if_pos rfl, readFs]
        rw [if_neg (fun hc => h hc.symm), if_neg]
        intro hc
        exact h hc.symm
      · simp [writeFs, readFs, he, ih]

theorem keys_writeFs_of_read {fs : Fs} {p s : Str}
    (h : readFs fs p = some s) (c : Str) :
    keys (writeFs fs p c) = keys fs := by
  induction fs with
  | nil => simp [readFs] at h
  | cons e es ih =>
      by_cases he : e.1 = p
      · simp [writeFs, keys, he]
      · simp only [readFs, if_neg he] at h
        simp only [writeFs, if_neg he, keys, List.map_cons, List.cons.injEq,
          true_and, eq_self_iff_true]
        exact ih h

theorem readFs_none_of_not_mem_keys {fs : Fs} {p : Str}
    (h : ¬p ∈ keys fs) : readFs fs p = none := by
  induction fs with
  | nil => rfl
  | cons e es ih =>
      simp only [keys, List.map_cons, List.mem_cons] at h
      push_neg at h
      simp only [readFs, if_neg (fun hc : e.1 = p => h.1 hc.symm)]
      exact ih (by simpa [keys] using h.2)

theorem isFileB_keys (fs : Fs) (p : Str) :
    isFileB fs p = (keys fs).any (fun k => decide (k = p)) := by
  induction fs with
  | nil => rfl
  | cons e es ih =>
      simp only [isFileB, readFs, keys, List.map_cons, List.any_cons] at ih ⊢
      by_cases he : e.1 = p
      · simp [he]
      · simp [he, ih]

theorem isDirB_keys (fs : Fs) (p : Str) :
    isDirB fs p = (keys fs).any (fun k => isPre (p ++ [sepC]) k) := by
  induction fs with
  | nil => rfl
  | cons e es ih =>
      simp only [isDirB, keys, List.map_cons, List.any_cons] at ih ⊢
      rw [ih]

theorem readDirFs_keys (fs : Fs) (d : Str) :
    readDirFs fs d = ((keys fs).filterMap (fun kk =>
      if isPre (d ++ [sepC]) kk then
        some ((kk.drop (d.length + 1)).takeWhile (fun c => decide (c ≠ sepC)))
      else none)).dedup := by
  unfold readDirFs keys
  rw [List.filterMap_map]
  rfl

theorem fsExists_keys_eq {f g : Fs} (h : keys f = keys g) (p : Str) :
    fsExists f p = fsExists g p := by
  simp [fsExists, isFileB_keys, isDirB_keys, h]

theorem readDirFs_keys_eq {f g : Fs} (h : keys f = keys g) (d : Str) :
    readDirFs f d = readDirFs g d := by
  rw [readDirFs_keys, readDirFs_keys, h]

theorem isDirB_keys_eq {f g : Fs} (h : keys f = keys g) (p : Str) :
    isDirB f p = isDirB g p := by
  rw [isDirB_keys, isDirB_keys, h]

theorem examplesList_keys_eq (root : Str) {f g : Fs} (h : keys f = keys g) :
    examplesList root f = examplesList root g := by
  simp [examplesList, readDirFs_keys_eq h]

theorem exercisesList_keys_eq (root : Str) {f g : Fs} (h : keys f = keys g) :
    exercisesList root f = exercisesList root g := by
  simp only [exercisesList, readDirFs_keys_eq h]
  congr 1
  funext p
  exact isDirB_keys_eq h p

theorem exerciseAppsList_keys_eq (root : Str) {f g : Fs}
    (h : keys f = keys g) :
    exerciseAppsList root f = exerciseAppsList root g := by
  simp only [exerciseAppsList, exercisesList_keys_eq root h]
  congr 1
  funext ex
  rw [readDirFs_keys_eq h]

theorem appsWithPkgJson_keys_eq (root : Str) {f g : Fs}
    (h : keys f = keys g) :
    appsWithPkgJson root f = appsWithPkgJson root g := by
  simp only [appsWithPkgJson, examplesList_keys_eq root h,
    exerciseAppsList_keys_eq root h]
  congr 1
  funext app
  exact fsExists_keys_eq h (pkgPath app)

/-! ### Manifest Namer: step inversion and stability -/

theorem pkgPath_inj {a b : Str} (h : pkgPath a = pkgPath b) : a = b :=
  List.append_cancel_right h

theorem updateStep_inv {root : Str} {fs : Fs} {app : Str} {fs' : Fs} {w : Bool}
    (h : updateStep root fs app = some (fs', w)) :
    ∃ s pkg pkg2, readFs fs (pkgPath app) = some s ∧
      parseJson s = some pkg ∧
      setName pkg (candidateName root app) = some pkg2 ∧
      readFs fs' (pkgPath app) = some (serTop pkg2 ++ ['\n']) ∧
      (∀ q, q ≠ pkgPath app → readFs fs' q = readFs fs q) ∧
      keys fs' = keys fs ∧
      (w = false → fs' = fs ∧ s = serTop pkg2 ++ ['\n']) ∧
      (w = true → fs' = writeFs fs (pkgPath app) (serTop pkg2 ++ ['\n'])) := by
  unfold updateStep at h
  cases hr : readFs fs (pkgPath app) with
  | none => rw [hr] at h; exact Option.noConfusion h
  | some s =>
      rw [hr] at h
      simp only [] at h
      cases hp : parseJson s with
      | none => rw [hp] at h; exact Option.noConfusion h
      | some pkg =>
          rw [hp] at h
          simp only [] at h
          cases hn : setName pkg (candidateName root app) with
          | none => rw [hn] at h; exact Option.noConfusion h
          | some pkg2 =>
              rw [hn] at h
              simp only [] at h
              unfold writeIfNeeded at h
              rw [hr] at h
              simp only [] at h
              refine ⟨s, pkg, pkg2, rfl, hp, hn, ?_⟩
              by_cases heq : s = serTop pkg2 ++ ['\n']
              · rw [if_pos heq] at h
                simp only [Option.some.injEq, Prod.mk.injEq] at h
                obtain ⟨hfs, hw⟩ := h
                subst hfs
                refine ⟨by rw [hr, heq], fun q _ => rfl, rfl, ?_, ?_⟩
                · intro _; exact ⟨rfl, heq⟩
                · intro hw'; rw [← hw] at hw'; exact absurd hw' (by simp)
              · rw [if_neg heq] at h
                simp only [Option.some.injEq, Prod.mk.injEq] at h
                obtain ⟨hfs, hw⟩ := h
                subst hfs
                refine ⟨readFs_writeFs_self fs _ _,
                  fun q hq => readFs_writeFs_ne fs _ _ q hq,
                  keys_writeFs_of_read hr _, ?_, ?_⟩
                · intro hw'; rw [← hw] at hw'; exact absurd hw' (by simp)
                · intro _; rfl

/-- After the Manifest Namer has processed an app, reprocessing that app is
a no-op that reports `changed = false`. -/
def Stable (root app : Str) (fs : Fs) : Prop :=
  updateStep root fs app = some (fs, false)

theorem Stable_of_step {root : Str} {fs : Fs} {app : Str} {fs' : Fs}
    {w : Bool} (h : updateStep root fs app = some (fs', w)) :
    Stable root app fs' := by
  obtain ⟨s, pkg, pkg2, hr, hp, hn, hr', _, _, _⟩ := updateStep_inv h
  have hwf2 : jwfB pkg2 = true := setName_wf (parseJson_wf hp) hn
  have hparse2 : parseJson (serTop pkg2 ++ ['\n']) = some pkg2 :=
    parseJson_ser pkg2 hwf2
  have hidem : setName pkg2 (candidateName root app) = some pkg2 :=
    setName_idem hn
  show updateStep root fs' app = some (fs', false)
  unfold updateStep
  rw [hr']
  simp only []
  rw [hparse2]
  simp only []
  rw [hidem]
  simp only []
  unfold writeIfNeeded
  rw [hr']
  simp only []
  simp

theorem Stable_ext {root app : Str} {f g : Fs}
    (hfg : readFs g (pkgPath app) = readFs f (pkgPath app))
    (hst : Stable root app f) : Stable root app g := by
  unfold Stable updateStep at hst ⊢
  cases hr : readFs f (pkgPath app) with
  | none => rw [hr] at hst; exact Option.noConfusion hst
  | some s =>
      rw [hr] at hst
      simp only [] at hst
      rw [hfg, hr]
      simp only []
      cases hp : parseJson s with
      | none => rw [hp] at hst; exact Option.noConfusion hst
      | some pkg =>
          rw [hp] at hst
          simp only [] at hst
          simp only []
          cases hn : setName pkg (candidateName root app) with
          | none => rw [hn] at hst; exact Option.noConfusion hst
          | some pkg2 =>
              rw [hn] at hst
              simp only [] at hst
              simp only []
              unfold writeIfNeeded at hst ⊢
              rw [hr] at hst
              simp only [] at hst
              rw [hfg, hr]
              simp only []
              by_cases heq : s = serTop pkg2 ++ ['\n']
              · rw [if_pos heq]
              · rw [if_neg heq] at hst
                simp at hst

theorem updatePkgNames_cons_inv {root a : Str} {rest : List Str} {fs fs2 : Fs}
    {evs : List Ev}
    (h : updatePkgNames root fs (a :: rest) = some (fs2, evs)) :
    ∃ fs' w evs2, updateStep root fs a = some (fs', w) ∧
      updatePkgNames root fs' rest = some (fs2, evs2) ∧
      evs = (if w then [Ev.wrote (pkgPath a)] else []) ++ evs2 := by
  unfold updatePkgNames at h
  cases hstep : updateStep root fs a with
  | none => rw [hstep] at h; exact Option.noConfusion h
  | some st =>
      obtain ⟨fs', w⟩ := st
      rw [hstep] at h
      simp only [] at h
      cases hrest : updatePkgNames root fs' rest with
      | none => rw [hrest] at h; exact Option.noConfusion h
      | some res =>
          obtain ⟨fs2', evs2⟩ := res
          rw [hrest] at h
          simp only [Option.some.injEq, Prod.mk.injEq] at h
          refine ⟨fs', w, evs2, rfl, ?_, h.2.symm⟩
          rw [hrest, h.1]

theorem updatePkgNames_nil_inv {root : Str} {fs fs2 : Fs} {evs : List Ev}
    (h : updatePkgNames root fs [] = some (fs2, evs)) :
    fs2 = fs ∧ evs = [] := by
  simp only [updatePkgNames, Option.some.injEq, Prod.mk.injEq] at h
  exact ⟨h.1.symm, h.2.symm⟩

theorem updatePkgNames_keys {root : Str} {l : List Str} :
    ∀ {fs fs2 : Fs} {evs : List Ev},
      updatePkgNames root fs l = some (fs2, evs) → keys fs2 = keys fs := by
  induction l with
  | nil =>
      intro fs fs2 evs h
      rw [(updatePkgNames_nil_inv h).1]
  | cons a rest ih =>
      intro fs fs2 evs h
      obtain ⟨fs', w, evs2, hstep, hrest, _⟩ := updatePkgNames_cons_inv h
      obtain ⟨_, _, _, _, _, _, _, _, hkeys, _, _⟩ := updateStep_inv hstep
      rw [ih hrest, hkeys]

theorem updatePkgNames_preserves_stable {root b : Str} {l : List Str} :
    ∀ {fs fs2 : Fs} {evs : List Ev}, Stable root b fs →
      updatePkgNames root fs l = some (fs2, evs) → Stable root b fs2 := by
  induction l with
  | nil =>
      intro fs fs2 evs hst h
      rw [(updatePkgNames_nil_inv h).1]
      exact hst
  | cons a rest ih =>
      intro fs fs2 evs hst h
      obtain ⟨fs', w, evs2, hstep, hrest, _⟩ := updatePkgNames_cons_inv h
      have hb' : Stable root b fs' := by
        by_cases hab : a = b
        · subst hab
          exact Stable_of_step hstep
        · obtain ⟨_, _, _, _, _, _, _, hother, _, _, _⟩ := updateStep_inv hstep
          exact Stable_ext
            (hother (pkgPath b) fun hc => hab (pkgPath_inj hc).symm) hst
      exact ih hb' hrest

theorem updatePkgNames_stable_all {root : Str} {l : List Str} :
    ∀ {fs fs2 : Fs} {evs : List Ev},
      updatePkgNames root fs l = some (fs2, evs) →
      ∀ app ∈ l, Stable root app fs2 := by
  induction l with
  | nil => intro fs fs2 evs _ app happ; simp at happ
  | cons a rest ih =>
      intro fs fs2 evs h app happ
      obtain ⟨fs', w, evs2, hstep, hrest, _⟩ := updatePkgNames_cons_inv h
      rcases List.mem_cons.mp happ with h' | h'
      · subst h'
        exact updatePkgNames_preserves_stable (Stable_of_step hstep) hrest
      · exact ih hrest app h'

theorem updatePkgNames_of_stable {root : Str} {l : List Str} :
    ∀ {fs : Fs}, (∀ app ∈ l, Stable root app fs) →
      updatePkgNames root fs l = some (fs, []) := by
  induction l with
  | nil => intro fs _; rfl
  | cons a rest ih =>
      intro fs hall
      have hstep : updateStep root fs a = some (fs, false) :=
        hall a (by simp)
      show updatePkgNames root fs (a :: rest) = some (fs, [])
      unfold updatePkgNames
      rw [hstep]
      simp only []
      rw [ih fun app happ => hall app (by simp [happ])]
      simp

theorem updatePkgNames_events {root : Str} {l : List Str} :
    ∀ {fs fs2 : Fs} {evs : List Ev},
      updatePkgNames root fs l = some (fs2, evs) →
      ∀ e ∈ evs, ∃ app, app ∈ l ∧ e = Ev.wrote (pkgPath app) := by
  induction l with
  | nil =>
      intro fs fs2 evs h e he
      rw [(updatePkgNames_nil_inv h).2] at he
      simp at he
  | cons a rest ih =>
      intro fs fs2 evs h e he
      obtain ⟨fs', w, evs2, hstep, hrest, hevs⟩ := updatePkgNames_cons_inv h
      subst hevs
      rcases List.mem_append.mp he with h' | h'
      · cases w with
        | true =>
            simp only [if_pos] at h'
            simp at h'
            exact ⟨a, by simp, h'⟩
        | false => simp at h'
      · obtain ⟨app, happ, heq⟩ := ih hrest e h'
        exact ⟨app, by simp [happ], heq⟩

theorem updatePkgNames_count_zero {root a : Str} {l : List Str} :
    ∀ {fs fs2 : Fs} {evs : List Ev}, Stable root a fs →
      updatePkgNames root fs l = some (fs2, evs) →
      evs.count (Ev.wrote (pkgPath a)) = 0 := by
  induction l with
  | nil =>
      intro fs fs2 evs _ h
      rw [(updatePkgNames_nil_inv h).2]
      rfl
  | cons b rest ih =>
      intro fs fs2 evs hst h
      obtain ⟨fs', w, evs2, hstep, hrest, hevs⟩ := updatePkgNames_cons_inv h
      subst hevs
      by_cases hab : b = a
      · subst hab
        have : updateStep root fs b = some (fs, false) := hst
        rw [this] at hstep
        simp only [Option.some.injEq, Prod.mk.injEq] at hstep
        obtain ⟨hfs', hw⟩ := hstep
        subst hfs'
        rw [← hw]
        simp only [if_neg (by simp : ¬false = true), List.nil_append]
        exact ih hst hrest
      · have hb' : Stable root a fs' := by
          obtain ⟨_, _, _, _, _, _, _, hother, _, _, _⟩ := updateStep_inv hstep
          exact Stable_ext
            (hother (pkgPath a) fun hc => hab (pkgPath_inj hc).symm) hst
        have hrest0 := ih hb' hrest
        rw [List.count_append, hrest0]
        cases w with
        | true =>
            simp only [if_pos]
            simp [List.count_cons, List.count_nil]
            intro hc
            exact absurd hc (fun hcc => hab (pkgPath_inj hcc))
        | false => simp
  termination_by l.length

theorem updatePkgNames_count {root : Str} {l : List Str} :
    ∀ {fs fs2 : Fs} {evs : List Ev},
      updatePkgNames root fs l = some (fs2, evs) →
      ∀ q : Str, evs.count (Ev.wrote q) ≤ 1 := by
  induction l with
  | nil =>
      intro fs fs2 evs h q
      rw [(updatePkgNames_nil_inv h).2]
      simp
  | cons a rest ih =>
      intro fs fs2 evs h q
      obtain ⟨fs', w, evs2, hstep, hrest, hevs⟩ := updatePkgNames_cons_inv h
      subst hevs
      rw [List.count_append]
      by_cases hq : q = pkgPath a
      · subst hq
        have hz : evs2.count (Ev.wrote (pkgPath a)) = 0 :=
          updatePkgNames_count_zero (Stable_of_step hstep) hrest
        rw [hz]
        cases w with
        | true => simp [List.count_cons]
        | false => simp
      · have hc : ((if w then [Ev.wrote (pkgPath a)] else []) :
            List Ev).count (Ev.wrote q) = 0 := by
          cases w with
          | true =>
              simp [List.count_cons]
              intro hcc
              exact absurd hcc (fun hc2 => hq hc2.symm)
          | false => simp
        rw [hc]
        simpa using ih hrest q

/-! ### Mirror-side lemmas -/

theorem isPre_iff_append {p : Str} : ∀ {s : Str},
    isPre p s = true ↔ ∃ t, s = p ++ t := by
  induction p with
  | nil =>
      intro s
      simp [isPre]
  | cons c ps ih =>
      intro s
      cases s with
      | nil =>
          rw [show isPre (c :: ps) [] = false from rfl]
          simp
      | cons d ds =>
          constructor
          · intro h
            simp only [isPre] at h
            by_cases hc : c = d
            · subst hc
              rw [if_pos rfl] at h
              obtain ⟨t, ht⟩ := ih.mp h
              exact ⟨t, by rw [ht]; rfl⟩
            · rw [if_neg hc] at h
              exact absurd h (by simp)
          · rintro ⟨t, ht⟩
            rw [List.cons_append] at ht
            injection ht with h1 h2
            subst h1
            simp only [isPre, if_pos rfl]
            exact ih.mpr ⟨t, h2⟩

theorem ne_append_cons (p : Str) (c : Char) (t : Str) : p ≠ p ++ c :: t := by
  intro h
  have hlen := congrArg List.length h
  simp at hlen

theorem isPre_sep_append (d rel : Str) :
    isPre (d ++ [sepC]) (d ++ sepC :: rel) = true := by
  have h := isPre_append (d ++ [sepC]) rel
  simpa using h

theorem readFs_append_some {a : Fs} (b : Fs) {q c : Str}
    (h : readFs a q = some c) : readFs (a ++ b) q = some c := by
  induction a with
  | nil => exact absurd h (by simp [readFs])
  | cons e es ih =>
      simp only [readFs, List.cons_append] at h ⊢
      by_cases he : e.1 = q
      · rw [if_pos he] at h ⊢
        exact h
      · rw [if_neg he] at h ⊢
        exact ih h

theorem readFs_append_none {a : Fs} (b : Fs) {q : Str}
    (h : readFs a q = none) : readFs (a ++ b) q = readFs b q := by
  induction a with
  | nil => rfl
  | cons e es ih =>
      simp only [readFs, List.cons_append] at h ⊢
      by_cases he : e.1 = q
      · rw [if_pos he] at h
        exact absurd h (by simp)
      · rw [if_neg he] at h ⊢
        exact ih h

theorem drop_sep_append (src t : Str) :
    ((src ++ [sepC]) ++ t).drop (src.length + 1) = t := by
  have h : (src ++ [sepC]).length = src.length + 1 := by simp
  rw [← h]
  exact List.drop_left _ _

theorem cpCopies_cons_src (es : Fs) (v : Str) (src dest : Str) :
    cpCopies ((src, v) :: es) src dest = (dest, v) :: cpCopies es src dest := by
  simp [cpCopies]

theorem cpCopies_cons_under (es : Fs) (k v : Str) (src dest : Str)
    (h1 : k ≠ src) (h2 : isPre (src ++ [sepC]) k = true) :
    cpCopies ((k, v) :: es) src dest =
      (dest ++ sepC :: k.drop (src.length + 1), v) :: cpCopies es src dest := by
  simp [cpCopies, h1, h2]

theorem cpCopies_cons_out (es : Fs) (k v : Str) (src dest : Str)
    (h1 : k ≠ src) (h2 : isPre (src ++ [sepC]) k = false) :
    cpCopies ((k, v) :: es) src dest = cpCopies es src dest := by
  simp [cpCopies, h1, h2]

theorem readFs_cpCopies (fs : Fs) (src dest rel : Str) :
    readFs (cpCopies fs src dest) (dest ++ sepC :: rel) =
      readFs fs (src ++ sepC :: rel) := by
  induction fs with
  | nil => rfl
  | cons e es ih =>
      obtain ⟨k, v⟩ := e
      by_cases h1 : k = src
      · subst h1
        rw [cpCopies_cons_src]
        simp only [readFs]
        rw [if_neg (ne_append_cons dest sepC rel),
          if_neg (ne_append_cons k sepC rel)]
        exact ih
      · by_cases h2 : isPre (src ++ [sepC]) k = true
        · obtain ⟨t, ht⟩ := isPre_iff_append.mp h2
          rw [cpCopies_cons_under es k v src dest h1 h2]
          have hdrop : k.drop (src.length + 1) = t := by
            rw [ht]
            exact drop_sep_append src t
          have hk : k = src ++ sepC :: t := by
            rw [ht, List.append_assoc]
            rfl
          simp only [readFs]
          rw [hdrop]
          by_cases ht2 : t = rel
          · subst ht2
            rw [if_pos rfl, if_pos hk]
          · rw [if_neg (fun hc : dest ++ sepC :: t = dest ++ sepC :: rel =>
                ht2 (by
                  have := List.append_cancel_left hc
                  injection this)),
              if_neg (fun hc : k = src ++ sepC :: rel =>
                ht2 (by
                  rw [hk] at hc
                  have := List.append_cancel_left hc
                  injection this))]
            exact ih
        · rw [cpCopies_cons_out es k v src dest h1
            (by simpa using h2)]
          rw [ih]
          simp only [readFs]
          rw [if_neg (fun hc : k = src ++ sepC :: rel => h2 (by
            rw [hc]
            exact isPre_sep_append src rel))]

theorem rmRec_cons_kept {e : Str × Str} {p : Str} (es : Fs)
    (h1 : e.1 ≠ p) (h2 : isPre (p ++ [sepC]) e.1 = false) :
    rmRec (e :: es) p = e :: rmRec es p := by
  simp [rmRec, h1, h2]

theorem rmRec_cons_dropped {e : Str × Str} {p : Str} (es : Fs)
    (h : e.1 = p ∨ isPre (p ++ [sepC]) e.1 = true) :
    rmRec (e :: es) p = rmRec es p := by
  rcases h with h | h <;> simp [rmRec, h]

theorem readFs_rmRec_under (fs : Fs) (p q : Str)
    (h : isPre (p ++ [sepC]) q = true) : readFs (rmRec fs p) q = none := by
  induction fs with
  | nil => rfl
  | cons e es ih =>
      by_cases hd : e.1 = p ∨ isPre (p ++ [sepC]) e.1 = true
      · rw [rmRec_cons_dropped es hd]
        exact ih
      · push_neg at hd
        rw [rmRec_cons_kept es hd.1 (by simpa using hd.2)]
        simp only [readFs]
        rw [if_neg (fun hc : e.1 = q => hd.2 (by rw [hc]; exact h))]
        exact ih

theorem readFs_rmRec_other (fs : Fs) (p q : Str) (hne : q ≠ p)
    (h : isPre (p ++ [sepC]) q = false) :
    readFs (rmRec fs p) q = readFs fs q := by
  induction fs with
  | nil => rfl
  | cons e es ih =>
      by_cases hd : e.1 = p ∨ isPre (p ++ [sepC]) e.1 = true
      · rw [rmRec_cons_dropped es hd]
        have he : e.1 ≠ q := by
          intro hq
          rcases hd with hd | hd
          · exact hne (hq ▸ hd)
          · rw [hq] at hd
            rw [hd] at h
            exact absurd h (by simp)
        simp only [readFs]
        rw [if_neg he]
        exact ih
      · push_neg at hd
        rw [rmRec_cons_kept es hd.1 (by simpa using hd.2)]
        simp only [readFs]
        by_cases he : e.1 = q
        · rw [if_pos he, if_pos he]
        · rw [if_neg he, if_neg he]
          exact ih

theorem readFs_under_of_not_dir {fs : Fs} {d : Str} (h : isDirB fs d = false)
    (rel : Str) : readFs fs (d ++ sepC :: rel) = none := by
  induction fs with
  | nil => rfl
  | cons e es ih =>
      simp only [isDirB, List.any_cons, Bool.or_eq_false_iff] at h
      obtain ⟨h1, h2⟩ := h
      simp only [readFs]
      rw [if_neg (fun hq : e.1 = d ++ sepC :: rel => by
        rw [hq] at h1
        rw [isPre_sep_append d rel] at h1
        exact absurd h1 (by simp))]
      exact ih h2

theorem mirrorStep_not_problem {fs : Fs} {app : Str}
    (h : hasSub ("problem".data) app = false) : mirrorStep fs app = (fs, []) := by
  unfold mirrorStep
  rw [if_neg (by simp [h])]

theorem mirrorStep_eq (fs : Fs) (app : Str)
    (h : hasSub ("problem".data) app = true) :
    mirrorStep fs app =
      if fsExists fs (solTestsDir app) then
        if fsExists fs (probTestsDir app) then
          (cpRec (rmRec fs (probTestsDir app)) (solTestsDir app)
              (probTestsDir app),
            [Ev.rmDir (probTestsDir app),
              Ev.cpDir (solTestsDir app) (probTestsDir app)])
        else
          (cpRec fs (solTestsDir app) (probTestsDir app),
            [Ev.cpDir (solTestsDir app) (probTestsDir app)])
      else (fs, []) := by
  unfold mirrorStep
  rw [if_pos h]
  rfl

theorem Clash_prepend (u : Str) {s t : Str} (h : Clash s t) :
    Clash (u ++ s) (u ++ t) := by
  induction u with
  | nil => exact h
  | cons c cs ih => exact Clash.tail ih

theorem clash_ex_roots (root : Str) :
    Clash (examplesRoot root) (exercisesRoot root) := by
  unfold examplesRoot exercisesRoot
  refine Clash_prepend root ?_
  refine Clash.tail ?_
  show Clash ('e' :: 'x' :: 'a' :: "mples".data) ('e' :: 'x' :: 'e' :: "rcises".data)
  exact Clash.tail (Clash.tail (Clash.head _ _ (by decide)))

theorem clash_app_solutionAppOf {app : Str}
    (h : hasSub ("problem".data) app = true) :
    Clash app (solutionAppOf app) :=
  @clash_replaceFirst ("problem".data) ("roblem".data) ("solution".data)
    ("olution".data) 'p' 's' (by decide) (by decide) (by decide) app h

theorem mirrorStep_events (fs : Fs) (app : Str) :
    ∀ e ∈ (mirrorStep fs app).2, isWroteEv e = false := by
  by_cases hp : hasSub ("problem".data) app = true
  · rw [mirrorStep_eq fs app hp]
    split_ifs with h1 h2
    · intro e he
      simp only [List.mem_cons, List.not_mem_nil, or_false] at he
      rcases he with rfl | rfl <;> rfl
    · intro e he
      simp only [List.mem_cons, List.not_mem_nil, or_false] at he
      subst he
      rfl
    · intro e he
      simp at he
  · rw [mirrorStep_not_problem (by simpa using hp)]
    intro e he
    simp at he

theorem copyTestFiles_events (l : List Str) :
    ∀ (fs : Fs), ∀ e ∈ (copyTestFiles fs l).2, isWroteEv e = false := by
  induction l with
  | nil =>
      intro fs e he
      simp [copyTestFiles] at he
  | cons a rest ih =>
      intro fs e he
      simp only [copyTestFiles] at he
      rw [List.mem_append] at he
      rcases he with he | he
      · exact mirrorStep_events fs a e he
      · exact ih _ e he

theorem runFix_inv {root : Str} {fs fs' : Fs} {evs : List Ev}
    (h : runFix root fs = some (fs', evs)) :
    ∃ fs1 evs1,
      updatePkgNames root fs (appsWithPkgJson root fs) = some (fs1, evs1) ∧
      fs' = (copyTestFiles fs1 (exerciseAppsList root fs)).1 ∧
      evs = evs1 ++ (copyTestFiles fs1 (exerciseAppsList root fs)).2 := by
  unfold runFix at h
  cases hu : updatePkgNames root fs (appsWithPkgJson root fs) with
  | none =>
      rw [hu] at h
      exact Option.noConfusion h
  | some res =>
      obtain ⟨fs1, evs1⟩ := res
      rw [hu] at h
      simp only [Option.some.injEq, Prod.mk.injEq] at h
      exact ⟨fs1, evs1, rfl, h.1.symm, h.2.symm⟩

theorem not_mem_exerciseApps_of_example {root : Str} {fs : Fs} {p : Str}
    (hp : p ∈ examplesList root fs) : p ∉ exerciseAppsList root fs := by
  intro hq
  simp only [examplesList, List.mem_map] at hp
  obtain ⟨dd, _, hpd⟩ := hp
  simp only [exerciseAppsList, List.mem_bind] at hq
  obtain ⟨ex, hex, hq2⟩ := hq
  simp only [List.mem_map, List.mem_filter] at hq2
  obtain ⟨d, _, hqd⟩ := hq2
  simp only [exercisesList, List.mem_filter, List.mem_map] at hex
  obtain ⟨⟨d2, _, hex2⟩, _⟩ := hex
  have h1 : examplesRoot root ++ sepC :: dd
      = exercisesRoot root ++ (sepC :: d2 ++ sepC :: d) := by
    rw [hpd, ← hqd, ← hex2, List.append_assoc]
  exact absurd h1
    (Clash.ne ((clash_ex_roots root).append (sepC :: dd)
      (sepC :: d2 ++ sepC :: d)))

theorem count_eq_one_of_nodup_mem {l : List Str} {a : Str}
    (hn : l.Nodup) (ha : a ∈ l) : l.count a = 1 := by
  induction l with
  | nil => simp at ha
  | cons b bs ih =>
      rw [List.count_cons]
      rcases List.mem_cons.mp ha with rfl | ha2
      · rw [List.count_eq_zero.mpr (List.nodup_cons.mp hn).1]
        simp
      · rw [ih (List.nodup_cons.mp hn).2 ha2]
        have hab : a ≠ b := by
          intro h
          subst h
          exact (List.nodup_cons.mp hn).1 ha2
        simp [Ne.symm hab]

theorem count_filter_of_pos (pred : Str → Bool) (a : Str) {l : List Str}
    (h : pred a = true) : (l.filter pred).count a = l.count a := by
  induction l with
  | nil => rfl
  | cons b bs ih =>
      by_cases hb : pred b = true
      · rw [List.filter_cons_of_pos hb, List.count_cons, List.count_cons, ih]
      · rw [List.filter_cons_of_neg (by simpa using hb), ih, List.count_cons]
        have hab : a ≠ b := fun he => hb (he ▸ h)
        simp [Ne.symm hab]

theorem count_examplesList {root : Str} {fs : Fs} {p : Str}
    (hp : p ∈ examplesList root fs) : (examplesList root fs).count p = 1 := by
  apply count_eq_one_of_nodup_mem ?_ hp
  apply List.Nodup.map
  · intro a b hab
    have h2 := List.append_cancel_left hab
    injection h2
  · exact List.nodup_dedup _

theorem serAt_ends (k : Nat) (j : Json) :
    ∃ t c, serAt k j = t ++ [c] ∧ c ≠ '\n' := by
  cases j with
  | jnull => exact ⟨['n', 'u', 'l'], 'l', rfl, by decide⟩
  | jbool b =>
      cases b with
      | true => exact ⟨['t', 'r', 'u'], 'e', rfl, by decide⟩
      | false => exact ⟨['f', 'a', 'l', 's'], 'e', rfl, by decide⟩
  | jnum n =>
      have hne := natSer_ne_nil n.natAbs
      have hlast := List.getLast_mem hne
      have hdig := natSer_all_digits n.natAbs _ hlast
      have hsplit := List.dropLast_append_getLast hne
      have hnl : (natSer n.natAbs).getLast hne ≠ '\n' :=
        digit_ne hdig (by decide)
      by_cases hn : n < 0
      · refine ⟨'-' :: (natSer n.natAbs).dropLast,
          (natSer n.natAbs).getLast hne, ?_, hnl⟩
        show serInt n = _
        rw [serInt, if_pos hn, List.cons_append, hsplit]
      · refine ⟨(natSer n.natAbs).dropLast,
          (natSer n.natAbs).getLast hne, ?_, hnl⟩
        show serInt n = _
        rw [serInt, if_neg hn, hsplit]
  | jstr s => exact ⟨'"' :: escape s, '"', rfl, by decide⟩
  | jarr xs =>
      cases xs with
      | nil => exact ⟨['['], ']', rfl, by decide⟩
      | cons x xs2 =>
          refine ⟨'[' :: '\n' :: (ind (k + 1) ++ serAt (k + 1) x ++
            serList (k + 1) xs2 ++ '\n' :: ind k), ']', ?_, by decide⟩
          show '[' :: '\n' :: (ind (k + 1) ++ serAt (k + 1) x ++
            serList (k + 1) xs2 ++ '\n' :: (ind k ++ [']'])) = _
          simp [List.append_assoc]
  | jobj fl =>
      cases fl with
      | nil => exact ⟨[lbr], rbr, rfl, by decide⟩
      | cons f fl2 =>
          refine ⟨lbr :: '\n' :: (ind (k + 1) ++ serField (k + 1) f ++
            serFields (k + 1) fl2 ++ '\n' :: ind k), rbr, ?_, by decide⟩
          show lbr :: '\n' :: (ind (k + 1) ++ serField (k + 1) f ++
            serFields (k + 1) fl2 ++ '\n' :: (ind k ++ [rbr])) = _
          simp [List.append_assoc]

theorem jfield_setName {pkg pkg2 : Json} {v : Str}
    (h : setName pkg v = some pkg2) :
    ∀ key, key ≠ "name".data → jfield pkg2 key = jfield pkg key := by
  intro key hk
  cases pkg with
  | jobj fl =>
      simp only [setName, Option.some.injEq] at h
      subst h
      exact jlookup_objInsert_ne fl _ _ key hk
  | jarr xs =>
      simp only [setName, Option.some.injEq] at h
      subst h
      rfl
  | jnull => simp [setName] at h
  | jbool b => simp [setName] at h
  | jnum n => simp [setName] at h
  | jstr s => simp [setName] at h

/-! ### Concrete workshop filesystems used by the witnesses -/

def wsRoot : Str := "/ws".data

def demoApp : Str := "/ws/examples/demo".data

def demoPkg : Str := "/ws/examples/demo/package.json".data

def demoOld : Str := "\x7b\"name\": \"old\"\x7d".data

def demoCanon : Str := "\x7b\n  \"name\": \"examples__sep__demo\"\n\x7d\n".data

def demoCompact : Str := "\x7b\"name\": \"examples__sep__demo\"\x7d".data

def fsDemo : Fs := [(demoPkg, demoOld)]

def fsDemoAfter : Fs := [(demoPkg, demoCanon)]

def depOld : Str :=
  "\x7b\"name\": \"x\", \"dependencies\": \x7b\"a\": \"1.0.0\"\x7d\x7d".data

def depCanon : Str :=
  "\x7b\n  \"name\": \"examples__sep__demo\",\n  \"dependencies\": \x7b\n    \"a\": \"1.0.0\"\n  \x7d\n\x7d\n".data

def fsDep : Fs := [(demoPkg, depOld)]

def fsDepAfter : Fs := [(demoPkg, depCanon)]

def probApp0 : Str := "/ws/exercises/01-a/problem".data

def solTests0 : Str := "/ws/exercises/01-a/solution/tests".data

def probTests0 : Str := "/ws/exercises/01-a/problem/tests".data

def fsVar : Fs := [
  ("/ws/exercises/01-a/problem/index.js".data, "p".data),
  ("/ws/exercises/01-a/solution/tests/t.js".data, "T".data)]

def fsVarAfter : Fs :=
  ("/ws/exercises/01-a/problem/tests/t.js".data, "T".data) :: fsVar

def fsNotes : Fs := [("/ws/exercises/01-a/problem-notes.txt".data, "n".data)]

def fsMirror : Fs := [
  ("/ws/exercises/01-a/problem/tests/old.js".data, "OLD".data),
  ("/ws/exercises/01-a/solution/tests/unit.js".data, "U".data)]

def fsSolFile : Fs := [
  (solTests0, "F".data),
  ("/ws/exercises/01-a/problem/tests/old.js".data, "stale".data)]

def fsNoSol : Fs := [("/ws/exercises/01-a/problem/tests/old.js".data, "stale".data)]

def fsFull : Fs := (demoPkg, demoOld) :: fsVar

def fsFullAfter : Fs := [
  ("/ws/exercises/01-a/problem/tests/t.js".data, "T".data),
  (demoPkg, demoCanon),
  ("/ws/exercises/01-a/problem/index.js".data, "p".data),
  ("/ws/exercises/01-a/solution/tests/t.js".data, "T".data)]

/-! ### The claims -/

/-- C1: for a project whose manifest parses as an object, the step writes
back a manifest whose `name` field is `candidateName root app`, the app path
relative to the workshop root with each path separator replaced by the
literal `__sep__`. The claim's parenthetical example is wrong: the path
`exercises/01-goo/problem.01-great` yields
`exercises__sep__01-goo__sep__problem.01-great`, not
`exercises__sep__01-goo.problem__sep__01-great` (the code comment's typo,
which the spec copied). -/
theorem c1_manifest_name {root : Str} {fs : Fs} {app : Str} {fs' : Fs}
    {w : Bool} {s : Str} {flds : List (Str × Json)}
    (h : updateStep root fs app = some (fs', w))
    (hs : readFs fs (pkgPath app) = some s)
    (hp : parseJson s = some (.jobj flds)) :
    candidateName root app
        = replaceSeps (replaceFirst (root ++ [sepC]) [] app) ∧
    ∃ s2, readFs fs' (pkgPath app) = some s2 ∧
      parseJson s2 = some (.jobj (objInsert flds ("name".data)
        (.jstr (candidateName root app)))) ∧
      jfield (.jobj (objInsert flds ("name".data)
          (.jstr (candidateName root app)))) ("name".data)
        = some (.jstr (candidateName root app)) := by
  obtain ⟨s2, pkg, pkg2, hr, hp2, hn, hr', _, _, _, _⟩ := updateStep_inv h
  rw [hs] at hr
  injection hr with hss
  subst hss
  rw [hp] at hp2
  injection hp2 with hpkg
  subst hpkg
  have hwf2 : jwfB pkg2 = true := setName_wf (parseJson_wf hp) hn
  have hser := parseJson_ser pkg2 hwf2
  simp only [setName, Option.some.injEq] at hn
  subst hn
  exact ⟨rfl, serTop (.jobj (objInsert flds ("name".data)
      (.jstr (candidateName root app)))) ++ ['\n'], hr', hser,
    jlookup_objInsert_self flds ("name".data)
      (.jstr (candidateName root app))⟩

theorem c1_manifest_name_witness :
    updateStep wsRoot fsDemo demoApp = some (fsDemoAfter, true) ∧
    (candidateName wsRoot demoApp
        = replaceSeps (replaceFirst (wsRoot ++ [sepC]) [] demoApp) ∧
      ∃ s2, readFs fsDemoAfter (pkgPath demoApp) = some s2 ∧
        parseJson s2 = some (Json.jobj (objInsert
          [("name".data, Json.jstr ("old".data))] ("name".data)
          (Json.jstr (candidateName wsRoot demoApp)))) ∧
        jfield (Json.jobj (objInsert
            [("name".data, Json.jstr ("old".data))] ("name".data)
            (Json.jstr (candidateName wsRoot demoApp)))) ("name".data)
          = some (Json.jstr (candidateName wsRoot demoApp))) :=
  ⟨rfl, @c1_manifest_name wsRoot fsDemo demoApp fsDemoAfter true demoOld
    [("name".data, Json.jstr ("old".data))] (by rfl) (by rfl) (by rfl)⟩

theorem c1_example_path_counterexample :
    candidateName ("/ws".data) ("/ws/exercises/01-goo/problem.01-great".data)
        = "exercises__sep__01-goo__sep__problem.01-great".data ∧
    candidateName ("/ws".data) ("/ws/exercises/01-goo/problem.01-great".data)
        ≠ "exercises__sep__01-goo.problem__sep__01-great".data :=
  ⟨rfl, by decide⟩

/-- C2: when the derived solution path has a `tests` subdirectory, after the
mirror step the problem variant's `tests` tree reads identically to the
solution's `tests` tree at every relative path: files present in the
solution appear with byte-identical contents, and files absent from the
solution (stale problem-side tests) no longer exist. -/
theorem c2_mirror_fresh_copy {fs : Fs} {app : Str} (rel : Str)
    (hprob : hasSub ("problem".data) app = true)
    (hdir : isDirB fs (solTestsDir app) = true) :
    readFs (mirrorStep fs app).1 (probTestsDir app ++ sepC :: rel) =
      readFs fs (solTestsDir app ++ sepC :: rel) := by
  have hclash := clash_app_solutionAppOf hprob
  have hsol : fsExists fs (solTestsDir app) = true := by
    unfold fsExists
    rw [hdir]
    simp
  have hq2ne : solTestsDir app ++ sepC :: rel ≠ probTestsDir app := by
    intro hc
    have h2 : solutionAppOf app ++ ((sepC :: "tests".data) ++ sepC :: rel)
        = app ++ (sepC :: "tests".data) := by
      rw [← List.append_assoc]
      exact hc
    exact Clash.ne (Clash.append hclash.symm
      ((sepC :: "tests".data) ++ sepC :: rel) (sepC :: "tests".data)) h2
  have hq2pre : isPre (probTestsDir app ++ [sepC])
      (solTestsDir app ++ sepC :: rel) = false := by
    have h2 := Clash.isPre_false (Clash.append hclash
      ((sepC :: "tests".data) ++ [sepC]) ((sepC :: "tests".data) ++ sepC :: rel))
    rw [← List.append_assoc, ← List.append_assoc] at h2
    exact h2
  rw [mirrorStep_eq fs app hprob, if_pos hsol]
  by_cases hpd : fsExists fs (probTestsDir app) = true
  · rw [if_pos hpd]
    simp only []
    show readFs (cpRec (rmRec fs (probTestsDir app)) (solTestsDir app)
      (probTestsDir app)) (probTestsDir app ++ sepC :: rel) = _
    unfold cpRec
    cases hc : readFs (cpCopies (rmRec fs (probTestsDir app)) (solTestsDir app)
        (probTestsDir app)) (probTestsDir app ++ sepC :: rel) with
    | some c =>
        rw [readFs_append_some _ hc]
        rw [readFs_cpCopies] at hc
        rw [readFs_rmRec_other fs (probTestsDir app)
          (solTestsDir app ++ sepC :: rel) hq2ne hq2pre] at hc
        exact hc.symm
    | none =>
        rw [readFs_append_none _ hc]
        rw [readFs_rmRec_under fs (probTestsDir app)
          (probTestsDir app ++ sepC :: rel) (isPre_sep_append _ rel)]
        rw [readFs_cpCopies] at hc
        rw [readFs_rmRec_other fs (probTestsDir app)
          (solTestsDir app ++ sepC :: rel) hq2ne hq2pre] at hc
        exact hc.symm
  · rw [if_neg hpd]
    simp only []
    show readFs (cpRec fs (solTestsDir app) (probTestsDir app))
      (probTestsDir app ++ sepC :: rel) = _
    unfold cpRec
    cases hc : readFs (cpCopies fs (solTestsDir app) (probTestsDir app))
        (probTestsDir app ++ sepC :: rel) with
    | some c =>
        rw [readFs_append_some _ hc]
        rw [readFs_cpCopies] at hc
        exact hc.symm
    | none =>
        rw [readFs_append_none _ hc]
        have hfe : fsExists fs (probTestsDir app) = false := by simpa using hpd
        have hnd : isDirB fs (probTestsDir app) = false := by
          unfold fsExists at hfe
          exact (Bool.or_eq_false_iff.mp hfe).2
        rw [readFs_under_of_not_dir hnd rel]
        rw [readFs_cpCopies] at hc
        exact hc.symm

theorem c2_mirror_fresh_copy_witness :
    hasSub ("problem".data) probApp0 = true ∧
    isDirB fsMirror (solTestsDir probApp0) = true ∧
    readFs fsMirror (solTestsDir probApp0 ++ sepC :: ("unit.js".data))
      = some ("U".data) ∧
    readFs (mirrorStep fsMirror probApp0).1
        (probTestsDir probApp0 ++ sepC :: ("old.js".data)) = none ∧
    readFs (mirrorStep fsMirror probApp0).1
        (probTestsDir probApp0 ++ sepC :: ("unit.js".data))
      = readFs fsMirror (solTestsDir probApp0 ++ sepC :: ("unit.js".data)) :=
  ⟨rfl, rfl, rfl, rfl, c2_mirror_fresh_copy ("unit.js".data) (by rfl) (by rfl)⟩

/-- C3: the Manifest Namer is idempotent: after a successful pass, running
the same pass on the resulting filesystem succeeds, changes nothing and
emits no `updated` notification; and within one pass each manifest path is
written (and notified) at most once. -/
theorem c3_namer_idempotent {root : Str} {fs fs1 : Fs} {evs : List Ev}
    (h : runNamer root fs = some (fs1, evs)) :
    runNamer root fs1 = some (fs1, []) ∧
      ∀ q : Str, evs.count (Ev.wrote q) ≤ 1 := by
  have h2 : updatePkgNames root fs (appsWithPkgJson root fs)
      = some (fs1, evs) := h
  constructor
  · show updatePkgNames root fs1 (appsWithPkgJson root fs1) = some (fs1, [])
    rw [appsWithPkgJson_keys_eq root (updatePkgNames_keys h2)]
    exact updatePkgNames_of_stable (updatePkgNames_stable_all h2)
  · exact updatePkgNames_count h2

theorem c3_namer_idempotent_witness :
    runNamer wsRoot fsDemoAfter = some (fsDemoAfter, []) ∧
      ∀ q : Str, List.count (Ev.wrote q) [Ev.wrote demoPkg] ≤ 1 :=
  @c3_namer_idempotent wsRoot fsDemo fsDemoAfter [Ev.wrote demoPkg] (by rfl)

/-- C4: when the manifest on disk is byte-identical to the canonical
serialization of its parsed value with the computed name assigned (in
particular its `name` already equals `candidateName`), the step reports
`changed = false` and leaves the filesystem untouched. The claim as stated
is wrong: an equal `name` alone does not prevent a write, because
`writeIfNeeded` compares whole serialized documents, so a manifest with the
right name but different formatting is still rewritten with
`changed = true`. -/
theorem c4_equal_name_no_write {root : Str} {fs : Fs} {app : Str}
    {s : Str} {pkg pkg2 : Json}
    (hs : readFs fs (pkgPath app) = some s)
    (hp : parseJson s = some pkg)
    (hn : setName pkg (candidateName root app) = some pkg2)
    (heq : s = serTop pkg2 ++ ['\n']) :
    updateStep root fs app = some (fs, false) := by
  unfold updateStep
  rw [hs]
  simp only []
  rw [hp]
  simp only []
  rw [hn]
  simp only []
  unfold writeIfNeeded
  rw [hs]
  simp only []
  rw [if_pos heq]

theorem c4_equal_name_no_write_witness :
    updateStep wsRoot fsDemoAfter demoApp = some (fsDemoAfter, false) :=
  c4_equal_name_no_write (by rfl) (by rfl) (by rfl) (by rfl)

theorem c4_formatting_counterexample :
    parseJson demoCompact
        = some (Json.jobj [("name".data, Json.jstr ("examples__sep__demo".data))]) ∧
    candidateName wsRoot demoApp = "examples__sep__demo".data ∧
    updateStep wsRoot [(demoPkg, demoCompact)] demoApp
        = some ([(demoPkg, demoCanon)], true) ∧
    demoCanon ≠ demoCompact :=
  ⟨rfl, rfl, rfl, by decide⟩

/-- C5: a directory without a `package.json` is never written by the
Manifest Namer: a full run emits no `updated` notification for its manifest
path. The claim's second half is wrong: the Variant Test Mirror iterates
over all discovered variant paths without any manifest check, so a problem
directory with no manifest is still processed (its tests directory is
removed and recopied). -/
theorem c5_no_manifest_no_write {root : Str} {fs fs' : Fs} {evs : List Ev}
    {app : Str}
    (h : runFix root fs = some (fs', evs))
    (hno : fsExists fs (pkgPath app) = false) :
    Ev.wrote (pkgPath app) ∉ evs := by
  intro hmem
  obtain ⟨fs1, evs1, hu, _, hevs⟩ := runFix_inv h
  subst hevs
  rcases List.mem_append.mp hmem with hm | hm
  · obtain ⟨b, hb, heq⟩ := updatePkgNames_events hu _ hm
    injection heq with heq2
    have hba : app = b := pkgPath_inj heq2
    subst hba
    have hx : fsExists fs (pkgPath app) = true := (List.mem_filter.mp hb).2
    rw [hno] at hx
    exact Bool.noConfusion hx
  · have hw := copyTestFiles_events _ fs1 _ hm
    simp [isWroteEv] at hw

theorem c5_no_manifest_no_write_witness :
    Ev.wrote (pkgPath probApp0) ∉ [Ev.cpDir solTests0 probTests0] :=
  @c5_no_manifest_no_write wsRoot fsVar fsVarAfter
    [Ev.cpDir solTests0 probTests0] probApp0 (by rfl) (by rfl)

theorem c5_mirror_processes_counterexample :
    fsExists fsVar (pkgPath probApp0) = false ∧
    runFix wsRoot fsVar = some (fsVarAfter, [Ev.cpDir solTests0 probTests0]) :=
  ⟨rfl, rfl⟩

/-- C6: the exercise containers are directory-filtered, but the variant
entries are not: `exerciseApps` keeps every child whose name matches
`/(problem|solution)/` with no `isDirectory` check, so a plain file such as
`problem-notes.txt` is classified as a variant. This theorem is the true
half (exercise containers really are directories); the counterexample
refutes the variant half. -/
theorem c6_exercises_are_dirs {root : Str} {fs : Fs} :
    ∀ ex ∈ exercisesList root fs, isDirB fs ex = true := by
  intro ex hex
  exact (List.mem_filter.mp hex).2

theorem c6_exercises_are_dirs_witness :
    isDirB fsNotes ("/ws/exercises/01-a".data) = true :=
  @c6_exercises_are_dirs wsRoot fsNotes ("/ws/exercises/01-a".data) (by decide)

theorem c6_nondir_variant_counterexample :
    ("/ws/exercises/01-a/problem-notes.txt".data)
        ∈ exerciseAppsList wsRoot fsNotes ∧
    isDirB fsNotes ("/ws/exercises/01-a/problem-notes.txt".data) = false ∧
    isFileB fsNotes ("/ws/exercises/01-a/problem-notes.txt".data) = true :=
  ⟨by decide, rfl, rfl⟩

/-- C7: a manifest rewrite preserves every field other than `name` (the
parsed object before and after agree on every other key), and the written
file is the serialized document followed by a single trailing newline: the
serialized body itself never ends in a newline. -/
theorem c7_field_preservation {root : Str} {fs : Fs} {app : Str} {fs' : Fs}
    (h : updateStep root fs app = some (fs', true)) :
    ∃ s pkg pkg2, readFs fs (pkgPath app) = some s ∧
      parseJson s = some pkg ∧
      setName pkg (candidateName root app) = some pkg2 ∧
      readFs fs' (pkgPath app) = some (serTop pkg2 ++ ['\n']) ∧
      (∀ key, key ≠ "name".data → jfield pkg2 key = jfield pkg key) ∧
      ∃ body lastc, serTop pkg2 = body ++ [lastc] ∧ lastc ≠ '\n' := by
  obtain ⟨s, pkg, pkg2, hr, hp, hn, hr', _, _, _, _⟩ := updateStep_inv h
  exact ⟨s, pkg, pkg2, hr, hp, hn, hr', jfield_setName hn, serAt_ends 0 pkg2⟩

theorem c7_field_preservation_witness :
    updateStep wsRoot fsDep demoApp = some (fsDepAfter, true) ∧
    (∃ pkg2v, parseJson depCanon = some pkg2v ∧
      jfield pkg2v ("dependencies".data)
        = some (Json.jobj [("a".data, Json.jstr ("1.0.0".data))])) ∧
    (∃ s pkg pkg2, readFs fsDep (pkgPath demoApp) = some s ∧
      parseJson s = some pkg ∧
      setName pkg (candidateName wsRoot demoApp) = some pkg2 ∧
      readFs fsDepAfter (pkgPath demoApp) = some (serTop pkg2 ++ ['\n']) ∧
      (∀ key, key ≠ "name".data → jfield pkg2 key = jfield pkg key) ∧
      ∃ body lastc, serTop pkg2 = body ++ [lastc] ∧ lastc ≠ '\n') :=
  ⟨rfl, ⟨_, rfl, rfl⟩, c7_field_preservation (by rfl)⟩

/-- C8: the mirror step leaves the filesystem entirely untouched when
`exists` fails on the derived solution `tests` path. The claim's phrasing
("no tests subdirectory") is wrong, however: the code checks `exists`, not
`isDirectory`, so a plain *file* named `tests` on the solution side passes
the check and the problem side's real tests directory is destroyed. -/
theorem c8_no_sol_tests_noop {fs : Fs} {app : Str}
    (h : fsExists fs (solTestsDir app) = false) :
    mirrorStep fs app = (fs, []) := by
  by_cases hp : hasSub ("problem".data) app = true
  · rw [mirrorStep_eq fs app hp, if_neg (by simp [h])]
  · exact mirrorStep_not_problem (by simpa using hp)

theorem c8_no_sol_tests_noop_witness :
    mirrorStep fsNoSol probApp0 = (fsNoSol, []) :=
  c8_no_sol_tests_noop (by rfl)

theorem c8_tests_file_counterexample :
    isDirB fsSolFile (solTestsDir probApp0) = false ∧
    readFs fsSolFile (probTestsDir probApp0 ++ sepC :: ("old.js".data))
        = some ("stale".data) ∧
    readFs (mirrorStep fsSolFile probApp0).1
        (probTestsDir probApp0 ++ sepC :: ("old.js".data)) = none :=
  ⟨rfl, rfl, rfl⟩

/-- C9: in a successful full run the event trace splits into a prefix of
manifest writes (the whole Manifest Namer pass) followed by a suffix with
no manifest write at all (the whole Variant Test Mirror pass): no write is
interleaved with or follows any test-directory removal or copy. -/
theorem c9_namer_before_mirror {root : Str} {fs fs' : Fs} {evs : List Ev}
    (h : runFix root fs = some (fs', evs)) :
    ∃ e1 e2, evs = e1 ++ e2 ∧ (∀ e ∈ e1, isWroteEv e = true) ∧
      (∀ e ∈ e2, isWroteEv e = false) := by
  obtain ⟨fs1, evs1, hu, _, hevs⟩ := runFix_inv h
  refine ⟨evs1, (copyTestFiles fs1 (exerciseAppsList root fs)).2, hevs,
    ?_, ?_⟩
  · intro e he
    obtain ⟨b, _, heq⟩ := updatePkgNames_events hu e he
    subst heq
    rfl
  · exact copyTestFiles_events _ fs1

theorem c9_namer_before_mirror_witness :
    ∃ e1 e2,
      [Ev.wrote demoPkg, Ev.cpDir solTests0 probTests0] = e1 ++ e2 ∧
      (∀ e ∈ e1, isWroteEv e = true) ∧ (∀ e ∈ e2, isWroteEv e = false) :=
  @c9_namer_before_mirror wsRoot fsFull fsFullAfter
    [Ev.wrote demoPkg, Ev.cpDir solTests0 probTests0] (by rfl)

/-- C10: an example project with a manifest appears exactly twice in the
iteration list of the Manifest Namer (the `examples` root is listed twice),
yet a successful pass writes its manifest at most once: the second
encounter finds the freshly serialized bytes already on disk. -/
theorem c10_example_twice_write_once {root : Str} {fs : Fs} {p : Str}
    {fs2 : Fs} {evs : List Ev}
    (hp : p ∈ examplesList root fs)
    (hpkg : fsExists fs (pkgPath p) = true)
    (hrun : runNamer root fs = some (fs2, evs)) :
    (appsWithPkgJson root fs).count p = 2 ∧
      evs.count (Ev.wrote (pkgPath p)) ≤ 1 := by
  have hrun2 : updatePkgNames root fs (appsWithPkgJson root fs)
      = some (fs2, evs) := hrun
  constructor
  · unfold appsWithPkgJson
    rw [count_filter_of_pos (fun app => fsExists fs (pkgPath app)) p hpkg,
      List.count_append, List.count_append,
      count_examplesList hp,
      List.count_eq_zero.mpr (not_mem_exerciseApps_of_example hp)]
  · exact updatePkgNames_count hrun2 _

theorem c10_example_twice_write_once_witness :
    (appsWithPkgJson wsRoot fsDemo).count demoApp = 2 ∧
      List.count (Ev.wrote demoPkg) [Ev.wrote demoPkg] ≤ 1 :=
  @c10_example_twice_write_once wsRoot fsDemo demoApp fsDemoAfter
    [Ev.wrote demoPkg] (by decide) (by rfl) (by rfl)

end Fix
